import Mathlib

/-!
Verification of the nested-configuration codec in
`src/dvc/utils/serialize/_config.py`.

The module converts between a nested configuration tree (a Python dict whose
values are scalars or nested dicts) and a flat INI-style document.  Its core
pieces, modelled here:

* `join_path` / `split_path` — the path codec turning a list of keys into one
  section name and back;
* `config_literal_eval` / `config_literal_dump` — the value codec turning flat
  text into typed scalars (via Python's `ast.literal_eval`, then `json.loads`,
  then a raw-string fallback) and back;
* `flatten_sections` — the tree flattener producing one section per tree node;
* `parse_config` / `_dump` — document decode and encode, modelled at the level
  of ordered section lists (the external `configparser` engine that turns text
  into sections and back is out of the module's scope and is treated as a
  faithful transport of the section structure).

Python strings are modelled as their sequences of Unicode code points
(`List Nat`), because Python strings may contain lone surrogate code points
(0xD800–0xDFFF) which Lean's `Char` cannot carry — and those arise in the
codec's behaviour on non-BMP characters.
-/

/-- A Python string: its sequence of Unicode code points.  Python permits lone
surrogates inside `str`, so `List Nat` rather than `String`. -/
abbrev PyStr := List Nat

/-- Code points of a Lean string literal, for writing concrete inputs. -/
def pys (s : String) : PyStr := s.data.map Char.toNat

/-- The scalar universe handled by the value codec: Python ints, floats,
booleans, `None` and strings.  Floats are modelled as decimal literals:
`float m e` denotes the decimal number `m / 10 ^ (e + 1)` whose text form has
exactly `e + 1` fractional digits (so every model float prints with a decimal
point, as `json.dumps` does for Python floats).  Composite literals (lists,
tuples, dicts) are outside the modelled fragment; dict values are part of the
tree structure, not scalars. -/
inductive PyValue : Type where
  | int : Int → PyValue
  | float : Int → Nat → PyValue
  | bool : Bool → PyValue
  | none : PyValue
  | str : PyStr → PyValue
deriving DecidableEq

/-- Little-endian decimal digits of `n` (digit values, not code points); the
first argument is fuel, `n` itself always suffices. -/
def toDigitsRev : Nat → Nat → List Nat
  | 0, _ => []
  | fuel + 1, n => if n = 0 then [] else n % 10 :: toDigitsRev fuel (n / 10)

/-- Canonical decimal rendering of a natural number, as code points. -/
def natToStr (n : Nat) : PyStr :=
  if n = 0 then [48] else ((toDigitsRev n n).reverse.map (fun d => d + 48))

/-- Canonical decimal rendering of an integer, as code points. -/
def intToStr (n : Int) : PyStr :=
  if n < 0 then 45 :: natToStr n.natAbs else natToStr n.natAbs

/-- Text of the model float `float m e`: sign, integer part, `.`, and exactly
`e + 1` fractional digits (left-padded with zeros). -/
def floatToStr (m : Int) (e : Nat) : PyStr :=
  let a := m.natAbs
  let ip := a / 10 ^ (e + 1)
  let fd := natToStr (a % 10 ^ (e + 1))
  (if m < 0 then [45] else []) ++ natToStr ip ++ [46] ++
    (List.replicate (e + 1 - fd.length) 48 ++ fd)

/-- Lowercase hexadecimal digit, as a code point. -/
def hexDigit (n : Nat) : Nat := if n < 10 then 48 + n else 87 + n

/-- Two lowercase hex digits of `n % 256`. -/
def hex2 (n : Nat) : PyStr := [hexDigit (n / 16 % 16), hexDigit (n % 16)]

/-- Four lowercase hex digits of `n % 65536`. -/
def hex4 (n : Nat) : PyStr :=
  [hexDigit (n / 4096 % 16), hexDigit (n / 256 % 16), hexDigit (n / 16 % 16), hexDigit (n % 16)]

/-- One character of Python `repr` output for a string quoted with `q`.
Model scope: `repr` escapes the backslash, the chosen quote, `\n`, `\r`, `\t`,
other C0 control characters and DEL via `\xNN`, and keeps the remaining code
points verbatim.  This is exact for code points below 0x7F.  CPython
additionally escapes every non-printable code point above ASCII (U+0080 to
U+009F, U+00A0, lone surrogates, unassigned code points, ...), a
Unicode-table property not reproduced here; the path and document round-trip
claims therefore restrict dotted keys — the only ones `join_path` sends
through `repr` — to printable ASCII via `dotAsciiKeyB`, on which this
definition and CPython `repr` coincide character for character. -/
def reprEsc (q : Nat) (c : Nat) : PyStr :=
  if c = 92 then [92, 92]
  else if c = q then [92, q]
  else if c = 10 then [92, 110]
  else if c = 13 then [92, 114]
  else if c = 9 then [92, 116]
  else if c < 32 ∨ c = 127 then 92 :: 120 :: hex2 c
  else [c]

/-- Python `repr` of a string: single quotes by default, double quotes when the
string contains a single quote but no double quote (as CPython chooses). -/
def pyRepr (s : PyStr) : PyStr :=
  let q : Nat := if 39 ∈ s ∧ ¬ 34 ∈ s then 34 else 39
  q :: ((s.map (reprEsc q)).flatten ++ [q])

/-- The per-key encoder of `join_path`: `repr(x) if "." in x else x`. -/
def encKey (x : PyStr) : PyStr := if 46 ∈ x then pyRepr x else x

/-- `join_path` from the source:
`".".join(repr(x) if "." in x else x for x in path)`. -/
def join_path : List PyStr → PyStr
  | [] => []
  | [x] => encKey x
  | x :: y :: xs => encKey x ++ 46 :: join_path (y :: xs)

/-- The quoted alternatives of the scanning regex
`(?:'([^']*)'|"([^"]*)"|([^.]*))(?:[.]|$)` used by `split_path`: with the
cursor just past an opening quote `q`, match up to the next `q`, then require
a `.` (consumed) or end of input.  `Option.none` means the alternative fails
and the regex backtracks to the unquoted alternative. -/
def quotedAlt (q : Nat) (rest : List Nat) : Option (PyStr × List Nat) :=
  let content := rest.takeWhile (fun c => ¬ c = q)
  match rest.dropWhile (fun c => ¬ c = q) with
  | [] => Option.none
  | _ :: after =>
    match after with
    | [] => Option.some (content, [])
    | c :: t => if c = 46 then Option.some (content, t) else Option.none

/-- The third alternative of the scanning regex: an unquoted (possibly empty)
run `[^.]*` up to the next `.` (consumed) or end of input.  It succeeds at
every position, which is why the source's `assert` guard never fires. -/
def unquotedAlt (cs : List Nat) : PyStr × List Nat :=
  match cs.dropWhile (fun c => ¬ c = 46) with
  | [] => (cs.takeWhile (fun c => ¬ c = 46), [])
  | _ :: t => (cs.takeWhile (fun c => ¬ c = 46), t)

/-- One match of the scanning regex at the cursor: try the single-quoted, then
the double-quoted, then the unquoted alternative; returns the captured group
and the input remaining after the match (separator consumed). -/
def pathMatch (cs : List Nat) : PyStr × List Nat :=
  match cs with
  | [] => ([], [])
  | c :: rest =>
    if c = 39 then
      match quotedAlt 39 rest with
      | Option.some r => r
      | Option.none => unquotedAlt cs
    else if c = 34 then
      match quotedAlt 34 rest with
      | Option.some r => r
      | Option.none => unquotedAlt cs
    else unquotedAlt cs

/-- The `re.finditer` loop of `split_path`: append each match's group and stop
as soon as the cursor reaches the end of the input (the source's `break`),
which also discards a would-be trailing empty segment after a final `.`.
Fuel-driven so the definition computes by kernel reduction; the input's length
is always enough fuel because every match at a non-end position consumes at
least one character. -/
def splitGo : Nat → List Nat → List PyStr
  | 0, _ => []
  | fuel + 1, cs =>
    let m := pathMatch cs
    if m.2.isEmpty then [m.1] else m.1 :: splitGo fuel m.2

/-- `split_path` from the source.  On the empty string the regex yields one
empty match, so the result is `[""]`.  The source guards each match with
`assert match.start() == offset`; that guard never fires because the unquoted
alternative matches at every position, so the model is total. -/
def split_path (s : PyStr) : List PyStr :=
  match s with
  | [] => [[]]
  | cs => splitGo cs.length cs

example : split_path (pys "a.b") = [pys "a", pys "b"] := by decide
example : split_path (pys "'a.b'.c") = [pys "a.b", pys "c"] := by decide
example : split_path (pys ".") = [[]] := by decide
example : split_path [] = [[]] := by decide
example : join_path [pys "a", pys "b"] = pys "a.b" := by decide
example : join_path [pys "a.b"] = pys "'a.b'" := by decide
example : split_path (join_path [[], []]) = [[]] := by decide

/-- Python-source whitespace that `ast.literal_eval` tolerates around a
literal: space, tab, newline, carriage return, form feed. -/
def isWS (c : Nat) : Bool := c = 32 || c = 9 || c = 10 || c = 13 || c = 12

/-- Strip whitespace from both ends. -/
def stripWS (s : PyStr) : PyStr := ((s.dropWhile isWS).reverse.dropWhile isWS).reverse

/-- Decimal digit test on code points. -/
def isDigitC (c : Nat) : Bool := 48 ≤ c && c ≤ 57

/-- Value of a string of decimal digit code points. -/
def digitVal (ds : PyStr) : Nat := ds.foldl (fun a c => a * 10 + (c - 48)) 0

/-- Validity of a Python decimal integer literal (without sign): nonempty
digits, and no leading zero unless every digit is zero (`0`, `00` are legal,
`01` is a `SyntaxError`). -/
def decIntOk (ds : PyStr) : Bool :=
  match ds with
  | [] => false
  | d :: _ => ds.all isDigitC && (¬ d = 48 || ds.all (fun c => c = 48))

/-- Value of a hex digit code point, or `999` when not a hex digit. -/
def hexVal (c : Nat) : Nat :=
  if 48 ≤ c ∧ c ≤ 57 then c - 48
  else if 97 ≤ c ∧ c ≤ 102 then c - 87
  else if 65 ≤ c ∧ c ≤ 70 then c - 55
  else 999

/-- Hex digit test on code points. -/
def isHexC (c : Nat) : Bool := hexVal c < 16

/-- Numeric literals of the `ast.literal_eval` fragment, after the optional
sign: either a decimal integer, or `digits.digits` (both parts nonempty; the
leading-zero restriction applies only to integer literals).  Exponent forms,
underscores and non-decimal bases are outside the modelled fragment. -/
def parseNum (neg : Bool) (u : PyStr) : Option PyValue :=
  let a := u.takeWhile isDigitC
  match u.drop a.length with
  | [] =>
    if decIntOk a then
      Option.some (.int (if neg then -(digitVal a : Int) else (digitVal a : Int)))
    else Option.none
  | c :: b =>
    if c = 46 ∧ ¬ a = [] ∧ ¬ b = [] ∧ b.all isDigitC then
      let m : Nat := digitVal a * 10 ^ b.length + digitVal b
      Option.some (.float (if neg then -(m : Int) else (m : Int)) (b.length - 1))
    else Option.none

/-- Body of a Python string literal quoted with `q`, cursor just past the
opening quote; the closing quote must end the input (whole-string match).
Escape handling follows CPython: `\\ \' \" \n \r \t \b \f \v \a`, `\xNN`
(exactly two hex digits required), `\uNNNN` (exactly four, lone surrogates
permitted), backslash-newline as line continuation; an unknown escape keeps
the backslash; a raw newline in the body is a `SyntaxError`.  Fuel-driven;
the input's length is enough fuel. -/
def pyStrBody : Nat → Nat → List Nat → Option PyStr
  | 0, _, _ => Option.none
  | _ + 1, _, [] => Option.none
  | fuel + 1, q, c :: rest =>
      if c = q then (if rest.isEmpty then Option.some [] else Option.none)
      else if c = 92 then
        match rest with
        | [] => Option.none
        | e :: rest2 =>
          if e = 10 then pyStrBody fuel q rest2
          else if e = 92 then (pyStrBody fuel q rest2).map (fun t => 92 :: t)
          else if e = 39 then (pyStrBody fuel q rest2).map (fun t => 39 :: t)
          else if e = 34 then (pyStrBody fuel q rest2).map (fun t => 34 :: t)
          else if e = 110 then (pyStrBody fuel q rest2).map (fun t => 10 :: t)
          else if e = 114 then (pyStrBody fuel q rest2).map (fun t => 13 :: t)
          else if e = 116 then (pyStrBody fuel q rest2).map (fun t => 9 :: t)
          else if e = 98 then (pyStrBody fuel q rest2).map (fun t => 8 :: t)
          else if e = 102 then (pyStrBody fuel q rest2).map (fun t => 12 :: t)
          else if e = 118 then (pyStrBody fuel q rest2).map (fun t => 11 :: t)
          else if e = 97 then (pyStrBody fuel q rest2).map (fun t => 7 :: t)
          else if e = 120 then
            match rest2 with
            | h1 :: h2 :: rest3 =>
              if isHexC h1 ∧ isHexC h2 then
                (pyStrBody fuel q rest3).map (fun t => (hexVal h1 * 16 + hexVal h2) :: t)
              else Option.none
            | _ => Option.none
          else if e = 117 then
            match rest2 with
            | h1 :: h2 :: h3 :: h4 :: rest3 =>
              if isHexC h1 ∧ isHexC h2 ∧ isHexC h3 ∧ isHexC h4 then
                (pyStrBody fuel q rest3).map
                  (fun t => (((hexVal h1 * 16 + hexVal h2) * 16 + hexVal h3) * 16 + hexVal h4) :: t)
              else Option.none
            | _ => Option.none
          else (pyStrBody fuel q rest2).map (fun t => 92 :: e :: t)
      else if c = 10 ∨ c = 13 then Option.none
      else (pyStrBody fuel q rest).map (fun t => c :: t)

/-- Exception kinds raised by the modelled `ast.literal_eval` fragment; both
are in the tuple `(ValueError, SyntaxError)` that `config_literal_eval`
catches. -/
inductive LitErr : Type where
  | valueError : LitErr
  | syntaxError : LitErr
deriving DecidableEq

/-- The `ast.literal_eval` fragment used by the codec: surrounding whitespace,
`True` / `False` / `None`, signed decimal int and float literals, and quoted
string literals.  Composite and exotic literals (lists, tuples, dicts, sets,
complex, hex/octal/binary ints, exponent floats, string concatenation) are
outside the modelled fragment; inputs using them simply fail here, as every
failure of the real `literal_eval` on scalar text does. -/
def pyLiteralEval (s : PyStr) : Except LitErr PyValue :=
  let t := stripWS s
  if t = pys "True" then .ok (.bool true)
  else if t = pys "False" then .ok (.bool false)
  else if t = pys "None" then .ok PyValue.none
  else
    match t with
    | [] => .error .syntaxError
    | c :: rest =>
      if c = 39 ∨ c = 34 then
        match pyStrBody rest.length c rest with
        | Option.some content => .ok (.str content)
        | Option.none => .error .syntaxError
      else
        let p := if c = 45 then parseNum true rest
                 else if c = 43 then parseNum false rest
                 else parseNum false t
        match p with
        | Option.some v => .ok v
        | Option.none => .error .valueError

/-- The single exception kind of the modelled `json.loads`
(`json.JSONDecodeError`, a subclass of `ValueError`, which
`config_literal_eval` catches). -/
inductive JsonErr : Type where
  | jsonDecodeError : JsonErr
deriving DecidableEq

/-- JSON whitespace. -/
def isJWS (c : Nat) : Bool := c = 32 || c = 9 || c = 10 || c = 13

/-- Validity of a JSON integer part: `0`, or digits without a leading zero. -/
def jsonIntOk (ds : PyStr) : Bool :=
  match ds with
  | [] => false
  | [d] => isDigitC d
  | d :: _ => isDigitC d && ¬ d = 48 && ds.all isDigitC

/-- JSON numbers of the modelled fragment (after the optional minus sign):
integer part with JSON's leading-zero rule, optional `.digits` fraction;
exponent forms are outside the fragment. -/
def jsonNum (neg : Bool) (u : PyStr) : Option PyValue :=
  let a := u.takeWhile isDigitC
  match u.drop a.length with
  | [] =>
    if jsonIntOk a then
      Option.some (.int (if neg then -(digitVal a : Int) else (digitVal a : Int)))
    else Option.none
  | c :: b =>
    if c = 46 ∧ jsonIntOk a ∧ ¬ b = [] ∧ b.all isDigitC then
      let m : Nat := digitVal a * 10 ^ b.length + digitVal b
      Option.some (.float (if neg then -(m : Int) else (m : Int)) (b.length - 1))
    else Option.none

/-- Body of a JSON string, cursor just past the opening `"`; the closing `"`
must end the input.  JSON escapes only (`\" \\ \/ \b \f \n \r \t \uNNNN`);
a high/low `\u` surrogate pair is combined into one code point, as
`json.loads` does; raw control characters and unknown escapes are errors. -/
def jsonStrBody : Nat → List Nat → Option PyStr
  | 0, _ => Option.none
  | fuel + 1, cs =>
    match cs with
    | [] => Option.none
    | c :: rest =>
      if c = 34 then (if rest.isEmpty then Option.some [] else Option.none)
      else if c = 92 then
        match rest with
        | [] => Option.none
        | e :: rest2 =>
          if e = 34 then (jsonStrBody fuel rest2).map (fun t => 34 :: t)
          else if e = 92 then (jsonStrBody fuel rest2).map (fun t => 92 :: t)
          else if e = 47 then (jsonStrBody fuel rest2).map (fun t => 47 :: t)
          else if e = 98 then (jsonStrBody fuel rest2).map (fun t => 8 :: t)
          else if e = 102 then (jsonStrBody fuel rest2).map (fun t => 12 :: t)
          else if e = 110 then (jsonStrBody fuel rest2).map (fun t => 10 :: t)
          else if e = 114 then (jsonStrBody fuel rest2).map (fun t => 13 :: t)
          else if e = 116 then (jsonStrBody fuel rest2).map (fun t => 9 :: t)
          else if e = 117 then
            match rest2 with
            | h1 :: h2 :: h3 :: h4 :: rest3 =>
              if isHexC h1 ∧ isHexC h2 ∧ isHexC h3 ∧ isHexC h4 then
                let h := ((hexVal h1 * 16 + hexVal h2) * 16 + hexVal h3) * 16 + hexVal h4
                match rest3 with
                | 92 :: 117 :: l1 :: l2 :: l3 :: l4 :: rest4 =>
                  if isHexC l1 ∧ isHexC l2 ∧ isHexC l3 ∧ isHexC l4 then
                    let l := ((hexVal l1 * 16 + hexVal l2) * 16 + hexVal l3) * 16 + hexVal l4
                    if 55296 ≤ h ∧ h < 56320 ∧ 56320 ≤ l ∧ l < 57344 then
                      (jsonStrBody fuel rest4).map
                        (fun t => (65536 + (h - 55296) * 1024 + (l - 56320)) :: t)
                    else
                      match jsonStrBody fuel rest3 with
                      | Option.some t => Option.some (h :: t)
                      | Option.none => Option.none
                  else Option.none
                | _ =>
                  match jsonStrBody fuel rest3 with
                  | Option.some t => Option.some (h :: t)
                  | Option.none => Option.none
              else Option.none
            | _ => Option.none
          else Option.none
      else if c < 32 then Option.none
      else (jsonStrBody fuel rest).map (fun t => c :: t)

/-- The `json.loads` fragment used by the codec: JSON whitespace, `true` /
`false` / `null`, numbers and strings.  Arrays and objects are outside the
modelled fragment. -/
def pyJsonLoads (s : PyStr) : Except JsonErr PyValue :=
  let t := (s.dropWhile isJWS).reverse.dropWhile isJWS |>.reverse
  if t = pys "true" then .ok (.bool true)
  else if t = pys "false" then .ok (.bool false)
  else if t = pys "null" then .ok PyValue.none
  else
    match t with
    | [] => .error .jsonDecodeError
    | c :: rest =>
      if c = 34 then
        match jsonStrBody rest.length rest with
        | Option.some content => .ok (.str content)
        | Option.none => .error .jsonDecodeError
      else
        let p := if c = 45 then jsonNum true rest else jsonNum false t
        match p with
        | Option.some v => .ok v
        | Option.none => .error .jsonDecodeError

/-- `config_literal_eval` from the source: try `ast.literal_eval`, catching
`(ValueError, SyntaxError)`; on failure try `json.loads`, catching
`ValueError` (`json.JSONDecodeError` subclasses it); on failure return the
original text unchanged.  Both modelled grammars only raise the caught
exception kinds, so the function is total. -/
def config_literal_eval (s : PyStr) : PyValue :=
  match pyLiteralEval s with
  | .ok v => v
  | .error _ =>
    match pyJsonLoads s with
    | .ok v => v
    | .error _ => .str s

/-- One character of `json.dumps` output under its default
`ensure_ascii=True`: the short escapes, `\uNNNN` for other control characters
and for every code point above `~` (126), and a surrogate pair for non-BMP
code points. -/
def jsonEsc (c : Nat) : PyStr :=
  if c = 34 then [92, 34]
  else if c = 92 then [92, 92]
  else if c = 10 then [92, 110]
  else if c = 13 then [92, 114]
  else if c = 9 then [92, 116]
  else if c = 8 then [92, 98]
  else if c = 12 then [92, 102]
  else if c < 32 then 92 :: 117 :: hex4 c
  else if c ≤ 126 then [c]
  else if c < 65536 then 92 :: 117 :: hex4 c
  else
    (92 :: 117 :: hex4 (55296 + (c - 65536) / 1024)) ++
      (92 :: 117 :: hex4 (56320 + (c - 65536) % 1024))

/-- `json.dumps` of a string. -/
def jsonDumpStr (s : PyStr) : PyStr := 34 :: ((s.map jsonEsc).flatten ++ [34])

/-- `json.dumps` on the modelled scalar universe (canonical JSON spellings;
for the decimal-literal model floats, their decimal text). -/
def jsonDumps : PyValue → PyStr
  | .int n => intToStr n
  | .float m e => floatToStr m e
  | .bool b => if b then pys "true" else pys "false"
  | .none => pys "null"
  | .str s => jsonDumpStr s

/-- `config_literal_dump` from the source: a non-string is rendered as JSON;
a string is emitted raw when decoding it gives back the very same string, and
as a JSON-quoted literal otherwise. -/
def config_literal_dump (v : PyValue) : PyStr :=
  match v with
  | .str s => if config_literal_eval s = .str s then s else jsonDumpStr s
  | v => jsonDumps v

example : config_literal_eval (pys "42") = .int 42 := by decide
example : config_literal_eval (pys "-7") = .int (-7) := by decide
example : config_literal_eval (pys "1.5") = .float 15 0 := by decide
example : config_literal_eval (pys "true") = .bool true := by decide
example : config_literal_eval (pys "True") = .bool true := by decide
example : config_literal_eval (pys "null") = PyValue.none := by decide
example : config_literal_eval (pys "hello") = .str (pys "hello") := by decide
example : config_literal_eval (pys "\"42\"") = .str (pys "42") := by decide
example : config_literal_dump (.str (pys "42")) = pys "\"42\"" := by decide
example : config_literal_dump (.str (pys "true")) = pys "\"true\"" := by decide
example : config_literal_dump (.str (pys "hello")) = pys "hello" := by decide
example : config_literal_dump (.bool true) = pys "true" := by decide
example : config_literal_dump (.int 42) = pys "42" := by decide
example : config_literal_dump (.float 15 0) = pys "1.5" := by decide
example :
    config_literal_eval (config_literal_dump (.str [39, 128512, 39])) =
      .str [39, 55357, 56832, 39] := by decide

mutual
/-- One value in a configuration-tree node: a scalar leaf or a nested tree
(in the source, any non-`dict` value versus a `dict`). -/
inductive CEntry : Type where
  | scalar : PyValue → CEntry
  | sub : CTree → CEntry

/-- A configuration tree node: an ordered association of string keys to
entries, modelling a Python dict (insertion-ordered; Python guarantees unique
keys, captured separately by `wfB`). -/
inductive CTree : Type where
  | nil : CTree
  | cons : PyStr → CEntry → CTree → CTree
end

/-- A section's direct scalar entries, in order. -/
abbrev SecList := List (PyStr × PyValue)

/-- The `res` accumulator of `flatten_sections`: an insertion-ordered mapping
from section name to section. -/
abbrev Res := List (PyStr × SecList)

/-- Python `d[k] = v` on a section: replace in place, else append. -/
def setKV (d : SecList) (k : PyStr) (v : PyValue) : SecList :=
  match d with
  | [] => [(k, v)]
  | (k', v') :: rest => if k = k' then (k', v) :: rest else (k', v') :: setKV rest k v

/-- Python `d.update(sec)` on a section. -/
def updSec (d : SecList) (sec : SecList) : SecList :=
  sec.foldl (fun d kv => setKV d kv.1 kv.2) d

/-- Python `res.setdefault(n, {})`. -/
def setdefaultR (res : Res) (n : PyStr) : Res :=
  if n ∈ res.map Prod.fst then res else res ++ [(n, [])]

/-- Python `res[n].update(sec)` where `res` is a `defaultdict(lambda: {})`:
update the first binding of `n` in place, or append a fresh one. -/
def updateR : Res → PyStr → SecList → Res
  | [], n, sec => [(n, updSec [] sec)]
  | (n', s') :: rest, n, sec =>
    if n = n' then (n', updSec s' sec) :: rest else (n', s') :: updateR rest n sec

/-- Python `res.pop(n, None)`: drop the binding of `n`, if any. -/
def eraseR : Res → PyStr → Res
  | [], _ => []
  | (n', s') :: rest, n => if n = n' then rest else (n', s') :: eraseR rest n

/-- The recursive worker `rec(d, path)` of `flatten_sections`, with the `res`
accumulator explicit.  It first runs `res.setdefault(join_path(path), {})`
for the node, then processes the node's entries in order — a scalar entry is
collected into the node's own section, a nested entry runs the worker on the
subtree — and finally merges the collected section via
`res[join_path(path)].update(section)`.  Here the `setdefault`/`update`
bracket for a subtree is performed at its `sub` entry, and the function
returns the updated accumulator together with the node's own collected
section, so the caller can perform the node's own bracket; this is the same
computation with the recursion flattened out. -/
def fsTree : CTree → List PyStr → Res → Res × SecList
  | .nil, _, res => (res, [])
  | .cons k (.scalar v) rest, path, res =>
    let r := fsTree rest path res
    (r.1, (k, v) :: r.2)
  | .cons k (.sub t) rest, path, res =>
    let n := join_path (path ++ [k])
    let res1 := setdefaultR res n
    let r := fsTree t (path ++ [k]) res1
    fsTree rest path (updateR r.1 n r.2)

/-- `flatten_sections` from the source: run the worker from the root (path
`()`), then `res.pop("", None)` removes the root section before returning. -/
def flatten_sections (t : CTree) : Res :=
  let res0 := setdefaultR [] (join_path [])
  let r := fsTree t [] res0
  eraseR (updateR r.1 (join_path []) r.2) []

/-- Failures of document decoding.  `structuralConflict` models the source
walking a path segment that is already bound to a scalar: the `part not in
current` / `current[part] = ...` / `current.update(...)` steps then raise
`TypeError` or `AttributeError`, which nothing catches (`reraise` only
translates `configparser.Error`), so the decode fails; the spec calls this
condition `StructuralConflictError`.  `corruptedDocument` models
`configparser.Error` (e.g. a duplicate section name under the default strict
mode) being translated to `ConfigFileCorruptedError`. -/
inductive BuildErr : Type where
  | structuralConflict : BuildErr
  | corruptedDocument : BuildErr
deriving DecidableEq

/-- Python `current[k] = e` on a tree node: replace in place, else append. -/
def setItemT : CTree → PyStr → CEntry → CTree
  | .nil, k, e => .cons k e .nil
  | .cons k' e' rest, k, e =>
    if k = k' then .cons k' e rest else .cons k' e' (setItemT rest k e)

/-- Python `k in current` / `current[k]` on a tree node (first binding). -/
def lookupT : CTree → PyStr → Option CEntry
  | .nil, _ => Option.none
  | .cons k' e rest, k => if k = k' then Option.some e else lookupT rest k

/-- Python `current.update(sec)` with scalar values. -/
def updEntries (t : CTree) (sec : SecList) : CTree :=
  sec.foldl (fun t kv => setItemT t kv.1 (.scalar kv.2)) t

/-- The walk of `parse_config` for one section: follow the decoded path from
the root, creating empty nested trees for missing segments
(`current[part] = current = dict()`), and update the final node with the
section's entries.  A segment already bound to a scalar is a structural
conflict (see `BuildErr.structuralConflict`). -/
def walkUpdate : CTree → List PyStr → SecList → Except BuildErr CTree
  | t, [], sec => .ok (updEntries t sec)
  | t, k :: ps, sec =>
    match lookupT t k with
    | Option.none =>
      match walkUpdate .nil ps sec with
      | .ok r => .ok (setItemT t k (.sub r))
      | .error e => .error e
    | Option.some (.sub t') =>
      match walkUpdate t' ps sec with
      | .ok r => .ok (setItemT t k (.sub r))
      | .error e => .error e
    | Option.some (.scalar _) => .error .structuralConflict

/-- One section of the flat document, as handed over by the external
`configparser` engine: the raw section name and the raw `key = value` texts. -/
abbrev RawSection := PyStr × List (PyStr × PyStr)

/-- A flat document, abstracted to its ordered list of sections (the text
layer itself belongs to the external engine, out of the module's scope). -/
abbrev Document := List RawSection

/-- Processing of one section by `parse_config`: decode the name with
`split_path`, decode each value with `config_literal_eval`, walk and merge. -/
def processSection (t : CTree) (s : RawSection) : Except BuildErr CTree :=
  walkUpdate t (split_path s.1) (s.2.map (fun kv => (kv.1, config_literal_eval kv.2)))

/-- The section loop of `parse_config`, in document order. -/
def parseGo : CTree → Document → Except BuildErr CTree
  | t, [] => .ok t
  | t, s :: rest =>
    match processSection t s with
    | .ok t' => parseGo t' rest
    | .error e => .error e

/-- No duplicates in a list. -/
def nodupB {α : Type} [DecidableEq α] : List α → Bool
  | [] => true
  | x :: r => if x ∈ r then false else nodupB r

/-- `parse_config` from the source, at the section-list abstraction: the
external engine feeds the ordered sections (rejecting duplicate section
names, which its strict mode turns into `configparser.Error`, reraised as
`ConfigFileCorruptedError`), and the loop builds the nested tree. -/
def parse_config (doc : Document) : Except BuildErr CTree :=
  if nodupB (doc.map Prod.fst) then parseGo .nil doc else .error .corruptedDocument

/-- `_dump` from the source, at the section-list abstraction: flatten the
tree, then encode every leaf value with `config_literal_dump`; the resulting
sections are handed to the external engine for writing. -/
def _dump (t : CTree) : Document :=
  (flatten_sections t).map (fun ns => (ns.1, ns.2.map (fun kv => (kv.1, config_literal_dump kv.2))))

/-- Total lexicographic order on keys, used only to state Python's
order-insensitive dict equality via a canonical form. -/
def keyLe : PyStr → PyStr → Bool
  | [], _ => true
  | _ :: _, [] => false
  | a :: as, b :: bs => if a < b then true else if b < a then false else keyLe as bs

/-- Insert an entry into a key-sorted node. -/
def insertSorted (k : PyStr) (e : CEntry) : CTree → CTree
  | .nil => .cons k e .nil
  | .cons k' e' rest =>
    if keyLe k k' then .cons k e (.cons k' e' rest)
    else .cons k' e' (insertSorted k e rest)

/-- Key-sorted normal form of a tree, recursively.  Python's `==` on dicts
ignores insertion order, so two (duplicate-key-free) trees are `==` exactly
when their normal forms coincide. -/
def normTree : CTree → CTree
  | .nil => .nil
  | .cons k (.scalar v) rest => insertSorted k (.scalar v) (normTree rest)
  | .cons k (.sub t) rest => insertSorted k (.sub (normTree t)) (normTree rest)

/-- Python `==` on configuration trees (nested dicts): order-insensitive
structural equality. -/
def pyDictEq (a b : CTree) : Prop := normTree a = normTree b

/-- Keys of a node, in order. -/
def keysT : CTree → List PyStr
  | .nil => []
  | .cons k _ rest => k :: keysT rest

/-- Well-formedness inherited from Python dicts: keys unique in every node. -/
def wfB : CTree → Bool
  | .nil => true
  | .cons k (.scalar _) rest => (if k ∈ keysT rest then false else true) && wfB rest
  | .cons k (.sub t) rest => (if k ∈ keysT rest then false else true) && wfB t && wfB rest

/-- A key that survives the path codec: nonempty, free of both quote
characters, and — when it contains the separator `.`, so that `join_path`
sends it through `repr` — free of characters that `repr` escapes (backslash,
C0 controls, DEL). -/
def goodKeyB (k : PyStr) : Bool :=
  (if k = [] then false else true) &&
  k.all (fun c => (if c = 39 ∨ c = 34 then false else true)) &&
  (if 46 ∈ k then k.all (fun c => (if c = 92 ∨ c < 32 ∨ c = 127 then false else true)) else true)

/-- All keys of a tree, recursively, satisfy `goodKeyB`. -/
def goodKeysB : CTree → Bool
  | .nil => true
  | .cons k (.scalar _) rest => goodKeyB k && goodKeysB rest
  | .cons k (.sub t) rest => goodKeyB k && goodKeysB t && goodKeysB rest

/-- A key that, when it contains the separator `.` (so that `join_path` sends
it through `repr`), consists of printable ASCII only (code points below 127;
`goodKeyB` already bars C0 controls, DEL, the backslash and both quotes).  On
such keys CPython `repr` keeps every character verbatim, exactly as `reprEsc`
does; outside this range CPython escapes every non-printable code point
(U+0080–U+009F, U+00A0, ...), which `split_path` never unescapes, so dotted
keys containing such characters do not round trip in the program. -/
def dotAsciiKeyB (k : PyStr) : Bool :=
  if 46 ∈ k then k.all (fun c => c < 127) else true

/-- All keys of a tree, recursively, satisfy `dotAsciiKeyB`. -/
def dotAsciiB : CTree → Bool
  | .nil => true
  | .cons k (.scalar _) rest => dotAsciiKeyB k && dotAsciiB rest
  | .cons k (.sub t) rest => dotAsciiKeyB k && dotAsciiB t && dotAsciiB rest

/-- A scalar whose strings stay inside the Basic Multilingual Plane. -/
def bmpValB : PyValue → Bool
  | .str s => s.all (fun c => c < 65536)
  | _ => true

/-- All scalar string values of a tree lie in the BMP. -/
def bmpB : CTree → Bool
  | .nil => true
  | .cons _ (.scalar v) rest => bmpValB v && bmpB rest
  | .cons _ (.sub t) rest => bmpB t && bmpB rest

/-- Every direct entry of the root is a nested tree (no scalar at the root). -/
def rootAllSubB : CTree → Bool
  | .nil => true
  | .cons _ (.scalar _) _ => false
  | .cons _ (.sub _) rest => rootAllSubB rest

/-- The direct scalar entries of a node, in order ("leaf" entries). -/
def leaves : CTree → SecList
  | .nil => []
  | .cons k (.scalar v) rest => (k, v) :: leaves rest
  | .cons _ (.sub _) rest => leaves rest

/-- All strict-descendant nodes of a tree rooted at `p`, with their absolute
paths, in depth-first pre-order (each node before its own descendants,
siblings in insertion order) — the specification-side enumeration that
`flatten_sections` is proved to realise. -/
def preNodes : CTree → List PyStr → List (List PyStr × CTree)
  | .nil, _ => []
  | .cons _ (.scalar _) rest, p => preNodes rest p
  | .cons k (.sub t) rest, p =>
    (p ++ [k], t) :: (preNodes t (p ++ [k]) ++ preNodes rest p)

/-- The section a single node contributes: its encoded path and its leaves. -/
def encSec (pn : List PyStr × CTree) : PyStr × SecList :=
  (join_path pn.1, leaves pn.2)

deriving instance DecidableEq for CTree

deriving instance DecidableEq for Except

example :
    flatten_sections (.cons (pys "a") (.sub (.cons (pys "b") (.scalar (.int 1)) .nil)) .nil) =
      [(pys "a", [(pys "b", .int 1)])] := by decide
example :
    flatten_sections
      (.cons (pys "a")
        (.sub (.cons (pys "x") (.sub (.cons (pys "k") (.scalar (.int 1)) .nil))
          (.cons (pys "j") (.scalar (.int 2)) .nil))) .nil) =
      [(pys "a", [(pys "j", .int 2)]), (pys "a.x", [(pys "k", .int 1)])] := by decide
example : flatten_sections (.cons (pys "a") (.scalar (.int 1)) .nil) = [] := by decide
example : flatten_sections .nil = [] := by decide
example :
    parse_config [(pys "a.b", [(pys "z", pys "1"), (pys "w", pys "\"1\"")])] =
      .ok (.cons (pys "a")
        (.sub (.cons (pys "b")
          (.sub (.cons (pys "z") (.scalar (.int 1))
            (.cons (pys "w") (.scalar (.str (pys "1"))) .nil))) .nil)) .nil) := by decide
example :
    parse_config [(pys "a", [(pys "b", pys "1")]), (pys "a.b", [])] =
      .error .structuralConflict := by decide

/-- Section names of a `res` accumulator, in order. -/
def namesR (res : Res) : List PyStr := res.map Prod.fst

theorem namesR_setdefaultR (res : Res) (n : PyStr) :
    namesR (setdefaultR res n) =
      if n ∈ namesR res then namesR res else namesR res ++ [n] := by
  by_cases h : n ∈ res.map Prod.fst <;> simp [setdefaultR, namesR, h]

theorem namesR_updateR (res : Res) (n : PyStr) (sec : SecList) :
    namesR (updateR res n sec) =
      if n ∈ namesR res then namesR res else namesR res ++ [n] := by
  induction res with
  | nil => simp [updateR, namesR]
  | cons hd rest ih =>
    obtain ⟨n', s'⟩ := hd
    simp only [updateR, namesR, List.map_cons, List.mem_cons]
    by_cases h : n = n'
    · simp [h]
    · simp only [if_neg h, List.map_cons]
      rw [namesR] at ih
      rw [ih]
      by_cases h2 : n ∈ rest.map Prod.fst <;> simp [h2, h, namesR]

theorem nodupB_append_singleton {l : List PyStr} {n : PyStr}
    (hmem : ¬ n ∈ l) (h : nodupB l = true) : nodupB (l ++ [n]) = true := by
  induction l with
  | nil => simp [nodupB]
  | cons x r ih =>
    simp only [nodupB] at h
    by_cases hx : x ∈ r
    · simp [hx] at h
    · simp only [List.mem_cons, not_or] at hmem
      simp only [List.cons_append, nodupB, List.append_eq]
      have : ¬ x ∈ r ++ [n] := by
        simp only [List.mem_append, List.mem_singleton]
        rintro (h1 | h2)
        · exact hx h1
        · exact hmem.1 h2.symm
      rw [if_neg this]
      rw [if_neg hx] at h
      exact ih hmem.2 h

theorem nodupB_namesR_setdefaultR {res : Res} (n : PyStr)
    (h : nodupB (namesR res) = true) : nodupB (namesR (setdefaultR res n)) = true := by
  rw [namesR_setdefaultR]
  split
  · exact h
  · exact nodupB_append_singleton (by assumption) h

theorem nodupB_namesR_updateR {res : Res} (n : PyStr) (sec : SecList)
    (h : nodupB (namesR res) = true) : nodupB (namesR (updateR res n sec)) = true := by
  rw [namesR_updateR]
  split
  · exact h
  · exact nodupB_append_singleton (by assumption) h

theorem fsTree_nodup_namesR :
    (t : CTree) → (p : List PyStr) → (res : Res) →
    nodupB (namesR res) = true → nodupB (namesR (fsTree t p res).1) = true
  | .nil, _, _, h => h
  | .cons _ (.scalar _) rest, p, res, h => fsTree_nodup_namesR rest p res h
  | .cons k (.sub t) rest, p, res, h => by
    simp only [fsTree]
    exact fsTree_nodup_namesR rest p _
      (nodupB_namesR_updateR _ _
        (fsTree_nodup_namesR t (p ++ [k]) _ (nodupB_namesR_setdefaultR _ h)))

theorem eraseR_not_mem {res : Res} {k : PyStr}
    (h : nodupB (namesR res) = true) : ¬ k ∈ namesR (eraseR res k) := by
  induction res with
  | nil => simp [eraseR, namesR]
  | cons hd rest ih =>
    obtain ⟨n', s'⟩ := hd
    rw [show namesR ((n', s') :: rest) = n' :: namesR rest from rfl, nodupB] at h
    have h' := h
    by_cases hn : n' ∈ namesR rest
    · simp [hn] at h'
    · rw [if_neg hn] at h'
      simp only [eraseR]
      by_cases hk : k = n'
      · simp only [if_pos hk]
        rw [hk]
        exact hn
      · simp only [if_neg hk, namesR, List.map_cons, List.mem_cons]
        rintro (h1 | h2)
        · exact hk h1
        · exact ih h' h2

theorem flatten_sections_no_root (t : CTree) :
    ¬ ([] : PyStr) ∈ namesR (flatten_sections t) := by
  have h0 : nodupB (namesR (setdefaultR [] (join_path []))) = true := by decide
  exact eraseR_not_mem
    (nodupB_namesR_updateR _ _ (fsTree_nodup_namesR t [] _ h0))

/-- C10: an empty input document decodes to the empty tree, and the empty tree
encodes to an empty document: `flatten_sections` of the empty tree yields no
sections (the root section is suppressed), so `_dump` writes nothing and no
root section appears. -/
theorem c10_empty_and_root :
    parse_config [] = .ok CTree.nil ∧ flatten_sections CTree.nil = [] ∧
      _dump CTree.nil = [] := by
  refine ⟨by decide, by decide, by decide⟩

/-- C7: scalar entries directly at the tree root are silently dropped by
encoding.  The root section (name `join_path [] = ""`), which accumulates
exactly those entries, is removed by `res.pop("", None)` before output — no
section named `""` ever appears in `flatten_sections` output — so, e.g., the
tree `{"a": 1}` flattens to no sections at all, `_dump` writes nothing, and
the round trip returns the empty tree: the entry is lost. -/
theorem c7_root_scalars_dropped :
    (∀ t : CTree, ¬ ([] : PyStr) ∈ (flatten_sections t).map Prod.fst) ∧
      flatten_sections (.cons (pys "a") (.scalar (.int 1)) .nil) = [] ∧
      parse_config (_dump (.cons (pys "a") (.scalar (.int 1)) .nil)) = .ok .nil := by
  exact ⟨fun t => flatten_sections_no_root t, by decide, by decide⟩

instance (a b : CTree) : Decidable (pyDictEq a b) := by
  unfold pyDictEq
  infer_instance

/-- C1, counterexample to the claim as stated: the tree `{"a": 1}` has keys
and string scalar values avoiding every quoting edge case of the path grammar
(its only key is `"a"`, its only value an integer), yet decoding the encoded
document does not give it back: the root-level scalar entry lands in the root
section, which `flatten_sections` pops before output, so the document is
empty and decodes to the empty tree. -/
theorem c1_document_roundtrip_counterexample :
    parse_config (_dump (.cons (pys "a") (.scalar (.int 1)) .nil)) = .ok .nil ∧
      ¬ pyDictEq .nil (.cons (pys "a") (.scalar (.int 1)) .nil) := by
  refine ⟨by decide, by decide⟩

/-- C2, counterexample to the claim as stated: the plain string `"'😀'"`
(code points `[39, 128512, 39]`) needs quoting, `json.dumps` (with its
default `ensure_ascii=True`) encodes the non-BMP code point 128512 as the
surrogate pair `😀`, and `ast.literal_eval` — unlike a JSON
decoder — does not recombine surrogate pairs in string literals, so decoding
gives back a different string (two lone surrogates in place of the emoji):
the round trip changes the value. -/
theorem c2_scalar_roundtrip_counterexample :
    config_literal_eval (config_literal_dump (.str [39, 128512, 39])) =
        .str [39, 55357, 56832, 39] ∧
      ¬ config_literal_eval (config_literal_dump (.str [39, 128512, 39])) =
          .str [39, 128512, 39] := by
  refine ⟨by decide, by decide⟩

/-- C3, counterexample to the claim as stated: two non-empty paths whose keys
contain no (unescaped or otherwise) quote characters and yet do not round
trip.  `["", ""]` joins to `"."`, whose decoding stops after the first match
consumes the separator (the source's `break` fires at end of input), losing
the trailing empty key.  `["a.\\c"]` (a key with a separator and a backslash)
is sent through `repr`, which doubles the backslash, and `split_path` strips
only the quotes, never undoing escapes. -/
theorem c3_path_roundtrip_counterexample :
    ¬ split_path (join_path [[], []]) = [[], []] ∧
      ¬ split_path (join_path [[97, 46, 92, 99]]) = [[97, 46, 92, 99]] := by
  refine ⟨by decide, by decide⟩

/-- Modelled from the spec (§4.2), refinement side: the scan-position
malformedness the claim quantifies over, reading the three rules as (i) a
single-quoted run, (ii) a double-quoted run, (iii) a nonempty unquoted run up
to `.` or end — each followed by the required separator-or-end.  Returns
`true` when the scan reaches a position where no rule matches.  (The source's
regex differs in exactly one point: its third alternative `[^.]*` also
matches the empty run.) -/
def specMalformedGo : Nat → List Nat → Bool
  | 0, _ => false
  | fuel + 1, cs =>
    match cs with
    | [] => false
    | c :: rest =>
      let quoted := if c = 39 then quotedAlt 39 rest
                    else if c = 34 then quotedAlt 34 rest
                    else Option.none
      match quoted with
      | Option.some (_, r) => if r.isEmpty then false else specMalformedGo fuel r
      | Option.none =>
        if (cs.takeWhile (fun c => ¬ c = 46)).isEmpty then true
        else
          match cs.dropWhile (fun c => ¬ c = 46) with
          | [] => false
          | _ :: t => if t.isEmpty then false else specMalformedGo fuel t

/-- Modelled from the spec: a section name malformed in the sense of C5 —
at some scan position no grammar rule matches. -/
def specMalformedName (s : PyStr) : Bool := specMalformedGo s.length s

/-- C5, counterexample to the claim as stated: the name `"."` is malformed in
the claim's sense — at position 0 no rule matches a nonempty construct — yet
`split_path` does not fail: the regex's unquoted alternative `[^.]*` also
matches the empty run, so the scan succeeds and returns the path `[""]`.
`split_path` never raises `MalformedPathError` on any input (its `assert`
guard is unreachable); see `c5_split_path_never_fails`. -/
theorem c5_malformed_counterexample :
    specMalformedName (pys ".") = true ∧ split_path (pys ".") = [[]] := by
  refine ⟨by decide, by decide⟩

/-- C5 as amended: no input is malformed for the scanner as implemented —
the unquoted alternative matches a possibly-empty run at every position, so
`split_path` raises nothing and returns a (nonempty) path for every input
string. -/
theorem c5_split_path_never_fails : ∀ s : PyStr, ¬ split_path s = []
  | [] => by decide
  | c :: cs => by
    show ¬ splitGo (c :: cs).length (c :: cs) = []
    simp only [List.length_cons, splitGo]
    split <;> simp

/-- C6: scalar decoding is total — in the modelled fragment `ast.literal_eval`
only raises the caught `(ValueError, SyntaxError)` and `json.loads` only the
caught `JSONDecodeError <: ValueError`, so `config_literal_eval` always
returns a value — and when both grammars fail on the whole string it returns
the original text unchanged as a raw string. -/
theorem c6_eval_total_fallback :
    ∀ s : PyStr, (∃ v : PyValue, config_literal_eval s = v) ∧
      ((∃ e, pyLiteralEval s = .error e) → (∃ e', pyJsonLoads s = .error e') →
        config_literal_eval s = .str s) := by
  intro s
  refine ⟨⟨_, rfl⟩, ?_⟩
  rintro ⟨e, he⟩ ⟨e', he'⟩
  simp [config_literal_eval, he, he']

/-- Witness for C6 at the plain word `"hello"`, on which both grammars fail. -/
theorem c6_eval_total_fallback_witness :
    config_literal_eval (pys "hello") = .str (pys "hello") :=
  (c6_eval_total_fallback (pys "hello")).2
    ⟨.valueError, by decide⟩ ⟨.jsonDecodeError, by decide⟩

/-- A chain of fresh single-entry nodes along path `p` ending at node `t`
(what `current[part] = current = dict()` builds for missing segments). -/
def chainOf : List PyStr → CTree → CTree
  | [], t => t
  | k :: ps, t => .cons k (.sub (chainOf ps t)) .nil

theorem walkUpdate_nil (p : List PyStr) (sec : SecList) :
    walkUpdate .nil p sec = .ok (chainOf p (updEntries .nil sec)) := by
  induction p with
  | nil => rfl
  | cons k ps ih => simp [walkUpdate, lookupT, ih, setItemT, chainOf]

theorem walkUpdate_chainOf (p : List PyStr) (t : CTree) (sec : SecList) :
    walkUpdate (chainOf p t) p sec = .ok (chainOf p (updEntries t sec)) := by
  induction p with
  | nil => rfl
  | cons k ps ih => simp [chainOf, walkUpdate, lookupT, ih, setItemT]

/-- Follow nested-tree entries along a path (`None` when a segment is missing
or bound to a scalar). -/
def pathNode : CTree → List PyStr → Option CTree
  | t, [] => Option.some t
  | t, k :: ps =>
    match lookupT t k with
    | Option.some (.sub t') => pathNode t' ps
    | _ => Option.none

theorem pathNode_chainOf (p : List PyStr) (t : CTree) :
    pathNode (chainOf p t) p = Option.some t := by
  induction p with
  | nil => rfl
  | cons k ps ih => simp [chainOf, pathNode, lookupT, ih]

/-- C8: merge precedence is last-write-wins.  For any two sections (with the
distinct raw names the engine guarantees) whose names decode to the same path
and which bind the same leaf key, the built tree holds the later section's
value at that key. -/
theorem c8_last_write_wins (n₁ n₂ k v₁ v₂ : PyStr)
    (hne : ¬ n₁ = n₂) (hsp : split_path n₁ = split_path n₂) :
    ∃ t : CTree,
      parse_config [(n₁, [(k, v₁)]), (n₂, [(k, v₂)])] = .ok t ∧
      ∃ node, pathNode t (split_path n₁) = Option.some node ∧
        lookupT node k = Option.some (.scalar (config_literal_eval v₂)) := by
  have hnodup : nodupB ([(n₁, [(k, v₁)]), (n₂, [(k, v₂)])].map Prod.fst) = true := by
    simp [nodupB, hne]
  refine ⟨chainOf (split_path n₁)
      (updEntries (updEntries .nil [(k, config_literal_eval v₁)])
        [(k, config_literal_eval v₂)]), ?_, ?_⟩
  · rw [parse_config, if_pos hnodup]
    simp only [parseGo, processSection, List.map_cons, List.map_nil,
      walkUpdate_nil, ← hsp, walkUpdate_chainOf]
  · refine ⟨updEntries (updEntries .nil [(k, config_literal_eval v₁)])
      [(k, config_literal_eval v₂)], pathNode_chainOf _ _, ?_⟩
    simp [updEntries, setItemT, lookupT]

/-- Witness for C8: `[a.b] z = 1` then `['a'.b] z = 2` — distinct names, the
same decoded path `["a", "b"]` — leave `z = 2` at that path. -/
theorem c8_last_write_wins_witness :
    ¬ pys "a.b" = pys "'a'.b" ∧ split_path (pys "a.b") = split_path (pys "'a'.b") ∧
      ∃ t : CTree,
        parse_config [(pys "a.b", [(pys "z", pys "1")]),
                      (pys "'a'.b", [(pys "z", pys "2")])] = .ok t ∧
        ∃ node, pathNode t (split_path (pys "a.b")) = Option.some node ∧
          lookupT node (pys "z") = Option.some (.scalar (config_literal_eval (pys "2"))) :=
  ⟨by decide, by decide, c8_last_write_wins _ _ _ _ _ (by decide) (by decide)⟩

/-- The condition of C4 on the state of the tree when a section's decoded
path is walked: following existing entries, some segment to be walked is
already bound to a scalar (a missing segment would be freshly created and
can never conflict). -/
def walkHitsScalar : CTree → List PyStr → Bool
  | _, [] => false
  | t, k :: ps =>
    match lookupT t k with
    | Option.some (.scalar _) => true
    | Option.some (.sub t') => walkHitsScalar t' ps
    | Option.none => false

theorem walkUpdate_conflict {t : CTree} {p : List PyStr}
    (h : walkHitsScalar t p = true) (sec : SecList) :
    walkUpdate t p sec = .error .structuralConflict := by
  induction p generalizing t with
  | nil => simp [walkHitsScalar] at h
  | cons k ps ih =>
    cases hl : lookupT t k with
    | none => simp [walkHitsScalar, hl] at h
    | some e =>
      cases e with
      | scalar v => simp [walkUpdate, hl]
      | sub t' =>
        have h' : walkHitsScalar t' ps = true := by simpa [walkHitsScalar, hl] using h
        simp [walkUpdate, hl, ih h']

theorem parseGo_append {doc : Document} {t0 t : CTree} (s : RawSection)
    (h : parseGo t0 doc = .ok t) :
    parseGo t0 (doc ++ [s]) = processSection t s := by
  induction doc generalizing t0 with
  | nil =>
    simp only [parseGo] at h
    cases h
    simp only [List.nil_append, parseGo]
    cases hp : processSection t s <;> simp [hp, parseGo]
  | cons hd rest ih =>
    simp only [parseGo] at h ⊢
    match hp : processSection t0 hd with
    | .ok t1 => rw [hp] at h; exact ih h
    | .error e => rw [hp] at h; cases h

theorem nodupB_of_append {xs ys : List PyStr}
    (h : nodupB (xs ++ ys) = true) : nodupB xs = true := by
  induction xs with
  | nil => rfl
  | cons x r ih =>
    rw [List.cons_append, nodupB] at h
    rw [nodupB]
    by_cases hx : x ∈ r ++ ys
    · simp [hx] at h
    · have : ¬ x ∈ r := fun hr => hx (List.mem_append_left _ hr)
      rw [if_neg hx] at h
      rw [if_neg this]
      exact ih h

/-- C4: a structural conflict is a fatal decode error.  If a document decodes
to tree `t` and a further section's decoded path walks into a segment already
bound to a scalar in `t`, then decoding the extended document fails with the
structural-conflict error (the source's uncaught `TypeError` /
`AttributeError`; the spec's `StructuralConflictError`) — it neither
overwrites the scalar nor succeeds. -/
theorem c4_structural_conflict (doc : Document) (n : PyStr)
    (entries : List (PyStr × PyStr)) (t : CTree)
    (hnodup : nodupB ((doc ++ [(n, entries)]).map Prod.fst) = true)
    (hok : parse_config doc = .ok t)
    (hconf : walkHitsScalar t (split_path n) = true) :
    parse_config (doc ++ [(n, entries)]) = .error .structuralConflict := by
  have hdoc : nodupB (doc.map Prod.fst) = true := by
    rw [List.map_append] at hnodup
    exact nodupB_of_append hnodup
  rw [parse_config, if_pos hdoc] at hok
  rw [parse_config, if_pos hnodup]
  rw [parseGo_append _ hok, processSection]
  exact walkUpdate_conflict hconf _

/-- Witness for C4: `[a] b = 1` then a section `[a.b]` — the segment `b` is
bound to the scalar `1`, so the decode fails. -/
theorem c4_structural_conflict_witness :
    parse_config [(pys "a", [(pys "b", pys "1")]), (pys "a.b", [])] =
      .error .structuralConflict :=
  c4_structural_conflict [(pys "a", [(pys "b", pys "1")])] (pys "a.b") []
    (.cons (pys "a") (.sub (.cons (pys "b") (.scalar (.int 1)) .nil)) .nil)
    (by decide) (by decide) (by decide)

theorem goodKey_spec {k : PyStr} (h : goodKeyB k = true) :
    ¬ k = [] ∧ (∀ c ∈ k, ¬ c = 39 ∧ ¬ c = 34) ∧
      (46 ∈ k → ∀ c ∈ k, ¬ c = 92 ∧ 32 ≤ c ∧ ¬ c = 127) := by
  simp only [goodKeyB, Bool.and_eq_true, List.all_eq_true] at h
  obtain ⟨⟨h1, h2⟩, h3⟩ := h
  refine ⟨?_, ?_, ?_⟩
  · intro hk
    rw [if_pos hk] at h1
    cases h1
  · intro c hc
    have hcc := h2 c hc
    by_cases hor : c = 39 ∨ c = 34
    · rw [if_pos hor] at hcc; cases hcc
    · exact not_or.mp hor
  · intro h46 c hc
    rw [if_pos h46, List.all_eq_true] at h3
    have hcc := h3 c hc
    by_cases hor : c = 92 ∨ c < 32 ∨ c = 127
    · rw [if_pos hor] at hcc; cases hcc
    · omega

theorem reprEsc_plain {c : Nat} (h92 : ¬ c = 92) (h39 : ¬ c = 39)
    (hge : 32 ≤ c) (h127 : ¬ c = 127) : reprEsc 39 c = [c] := by
  unfold reprEsc
  rw [if_neg h92, if_neg h39, if_neg (by omega), if_neg (by omega), if_neg (by omega),
    if_neg (by omega)]

theorem flatten_of_singletons {l : List Nat} {f : Nat → List Nat}
    (h : ∀ c ∈ l, f c = [c]) : (l.map f).flatten = l := by
  induction l with
  | nil => rfl
  | cons c t ih =>
    simp only [List.map_cons, List.flatten_cons, h c (List.mem_cons_self c t)]
    rw [ih (fun c hc => h c (List.mem_cons_of_mem _ hc))]
    rfl

theorem encKey_dot {k : PyStr} (h : goodKeyB k = true) (hd : 46 ∈ k) :
    encKey k = 39 :: (k ++ [39]) := by
  obtain ⟨-, hq, hr⟩ := goodKey_spec h
  have h39 : ¬ 39 ∈ k := fun hm => (hq 39 hm).1 rfl
  rw [encKey, if_pos hd, pyRepr]
  have hqsel : (if 39 ∈ k ∧ ¬ 34 ∈ k then 34 else 39) = 39 :=
    if_neg (fun hc => h39 hc.1)
  rw [hqsel]
  congr 1
  rw [flatten_of_singletons (fun c hc => reprEsc_plain ((hr hd c hc).1)
    ((hq c hc).1) ((hr hd c hc).2.1) ((hr hd c hc).2.2))]

theorem encKey_plain {k : PyStr} (hd : ¬ 46 ∈ k) : encKey k = k := if_neg hd

theorem encKey_ne_nil {k : PyStr} (h : goodKeyB k = true) : ¬ encKey k = [] := by
  by_cases hd : 46 ∈ k
  · rw [encKey_dot h hd]; simp
  · rw [encKey_plain hd]; exact (goodKey_spec h).1

theorem takeWhile_append_all {p : Nat → Bool} {xs ys : List Nat}
    (h : ∀ c ∈ xs, p c = true) : (xs ++ ys).takeWhile p = xs ++ ys.takeWhile p := by
  induction xs with
  | nil => rfl
  | cons c t ih =>
    have hc := h c (List.mem_cons_self c t)
    simp only [List.cons_append, List.takeWhile_cons, hc, if_true]
    rw [ih (fun c hc2 => h c (List.mem_cons_of_mem _ hc2))]

theorem dropWhile_append_all {p : Nat → Bool} {xs ys : List Nat}
    (h : ∀ c ∈ xs, p c = true) : (xs ++ ys).dropWhile p = ys.dropWhile p := by
  induction xs with
  | nil => rfl
  | cons c t ih =>
    have hc := h c (List.mem_cons_self c t)
    simp only [List.cons_append, List.dropWhile_cons, hc, if_true]
    exact ih (fun c hc2 => h c (List.mem_cons_of_mem _ hc2))

theorem quotedAlt_good {k : PyStr} (tail : List Nat) (hq : ∀ c ∈ k, ¬ c = 39) :
    quotedAlt 39 (k ++ 39 :: tail) =
      match tail with
      | [] => Option.some (k, [])
      | c :: t => if c = 46 then Option.some (k, t) else Option.none := by
  have hall : ∀ c ∈ k, (fun c => decide (¬ c = 39)) c = true := by
    intro c hc; simpa using hq c hc
  unfold quotedAlt
  rw [takeWhile_append_all hall, dropWhile_append_all hall]
  cases tail with
  | nil => simp
  | cons c t => simp

theorem unquotedAlt_plain_end {k : PyStr} (hnd : ¬ 46 ∈ k) :
    unquotedAlt k = (k, []) := by
  have hall : ∀ c ∈ k, (fun c => decide (¬ c = 46)) c = true := by
    intro c hc
    simp only [decide_eq_true_eq]
    intro he; rw [he] at hc; exact hnd hc
  unfold unquotedAlt
  rw [show k = k ++ ([] : List Nat) from by simp] 
  rw [takeWhile_append_all hall, dropWhile_append_all hall]
  simp

theorem unquotedAlt_plain_sep {k : PyStr} (r : List Nat) (hnd : ¬ 46 ∈ k) :
    unquotedAlt (k ++ 46 :: r) = (k, r) := by
  have hall : ∀ c ∈ k, (fun c => decide (¬ c = 46)) c = true := by
    intro c hc
    simp only [decide_eq_true_eq]
    intro he; rw [he] at hc; exact hnd hc
  unfold unquotedAlt
  rw [takeWhile_append_all hall, dropWhile_append_all hall]
  simp

theorem pathMatch_quoted {k : PyStr} (tail : List Nat) (hq : ∀ c ∈ k, ¬ c = 39) :
    pathMatch (39 :: (k ++ 39 :: tail)) =
      match tail with
      | [] => (k, [])
      | c :: t =>
        if c = 46 then (k, t)
        else unquotedAlt (39 :: (k ++ 39 :: tail)) := by
  have h1 : pathMatch (39 :: (k ++ 39 :: tail)) =
      match quotedAlt 39 (k ++ 39 :: tail) with
      | Option.some r => r
      | Option.none => unquotedAlt (39 :: (k ++ 39 :: tail)) := by
    simp [pathMatch]
  rw [h1, quotedAlt_good tail hq]
  cases tail with
  | nil => rfl
  | cons c t =>
    by_cases hc : c = 46
    · simp [hc]
    · simp [hc]

theorem pathMatch_unquoted_end {k : PyStr} (hne : ¬ k = [])
    (hnq : ∀ c ∈ k, ¬ c = 39 ∧ ¬ c = 34) (hnd : ¬ 46 ∈ k) :
    pathMatch k = (k, []) := by
  match k, hne with
  | c :: t, _ =>
    have hc := hnq c (List.mem_cons_self c t)
    simp only [pathMatch, if_neg hc.1, if_neg hc.2]
    exact unquotedAlt_plain_end hnd

theorem pathMatch_unquoted_sep {k : PyStr} (r : List Nat) (hne : ¬ k = [])
    (hnq : ∀ c ∈ k, ¬ c = 39 ∧ ¬ c = 34) (hnd : ¬ 46 ∈ k) :
    pathMatch (k ++ 46 :: r) = (k, r) := by
  match k, hne with
  | c :: t, _ =>
    have hc := hnq c (List.mem_cons_self c t)
    rw [List.cons_append]
    simp only [pathMatch, if_neg hc.1, if_neg hc.2]
    rw [← List.cons_append]
    exact unquotedAlt_plain_sep r hnd

/-- One encoded good key ending the input is matched exactly. -/
theorem pathMatch_encKey_end {k : PyStr} (h : goodKeyB k = true) :
    pathMatch (encKey k) = (k, []) := by
  obtain ⟨hne, hq, -⟩ := goodKey_spec h
  by_cases hd : 46 ∈ k
  · rw [encKey_dot h hd]
    rw [show k ++ [39] = k ++ 39 :: ([] : List Nat) from rfl]
    rw [pathMatch_quoted [] (fun c hc => (hq c hc).1)]
  · rw [encKey_plain hd]
    exact pathMatch_unquoted_end hne hq hd

/-- One encoded good key followed by the separator is matched exactly, the
separator consumed. -/
theorem pathMatch_encKey_sep {k : PyStr} (r : List Nat) (h : goodKeyB k = true) :
    pathMatch (encKey k ++ 46 :: r) = (k, r) := by
  obtain ⟨hne, hq, -⟩ := goodKey_spec h
  by_cases hd : 46 ∈ k
  · rw [encKey_dot h hd]
    rw [show (39 :: (k ++ [39])) ++ 46 :: r = 39 :: (k ++ 39 :: (46 :: r)) from by simp]
    rw [pathMatch_quoted (46 :: r) (fun c hc => (hq c hc).1)]
    simp
  · rw [encKey_plain hd]
    exact pathMatch_unquoted_sep r hne hq hd

theorem join_path_ne_nil {p : List PyStr} (hne : ¬ p = [])
    (hk : p.all goodKeyB = true) : ¬ join_path p = [] := by
  match p, hne with
  | [x], _ =>
    rw [join_path]
    exact encKey_ne_nil (by simpa using hk)
  | x :: y :: xs, _ =>
    rw [join_path]
    simp only [List.all_cons, Bool.and_eq_true] at hk
    intro hcontra
    have := encKey_ne_nil hk.1
    rcases List.append_eq_nil.mp hcontra with ⟨h1, h2⟩
    cases h2


theorem splitGo_join : ∀ (p : List PyStr) (fuel : Nat), ¬ p = [] →
    p.all goodKeyB = true → (join_path p).length ≤ fuel →
    splitGo fuel (join_path p) = p
  | [k], fuel, _, hk, hlen => by
    have hg : goodKeyB k = true := by simpa using hk
    have h1 : 1 ≤ (join_path [k]).length := by
      have hnn := encKey_ne_nil hg
      rw [join_path]
      cases hek : encKey k with
      | nil => exact absurd hek hnn
      | cons a b => simp
    cases fuel with
    | zero => omega
    | succ f =>
      rw [join_path]
      simp [splitGo, pathMatch_encKey_end hg]
  | k :: y :: xs, fuel, _, hk, hlen => by
    have hgk : goodKeyB k = true := by
      simp only [List.all_cons, Bool.and_eq_true] at hk
      exact hk.1
    have hrest : (y :: xs).all goodKeyB = true := by
      simp only [List.all_cons, Bool.and_eq_true] at hk ⊢
      exact ⟨hk.2.1, hk.2.2⟩
    have hjne : ¬ join_path (y :: xs) = [] :=
      join_path_ne_nil (by simp) hrest
    have hlk : 1 ≤ (encKey k).length := by
      cases hek : encKey k with
      | nil => exact absurd hek (encKey_ne_nil hgk)
      | cons a b => simp
    have hie : (join_path (y :: xs)).isEmpty = false := by
      cases hj : join_path (y :: xs) with
      | nil => exact absurd hj hjne
      | cons c t => rfl
    rw [join_path] at hlen ⊢
    have hm := pathMatch_encKey_sep (join_path (y :: xs)) hgk
    cases fuel with
    | zero =>
      exfalso
      simp only [List.length_append, List.length_cons] at hlen
      omega
    | succ f =>
      have hrec := splitGo_join (y :: xs) f (by simp) hrest (by
        simp only [List.length_append, List.length_cons] at hlen
        omega)
      simp [splitGo, hm, hie, hrec]

theorem split_path_ne_nil_eq {s : PyStr} (h : ¬ s = []) :
    split_path s = splitGo s.length s := by
  cases s with
  | nil => exact absurd rfl h
  | cons c t => rfl

theorem split_join_id (p : List PyStr) (hne : ¬ p = [])
    (hk : p.all goodKeyB = true) : split_path (join_path p) = p := by
  rw [split_path_ne_nil_eq (join_path_ne_nil hne hk)]
  exact splitGo_join p _ hne hk (Nat.le_refl _)

/-- C3 as amended: `split_path ∘ join_path` is the identity on non-empty
paths all of whose keys are `goodKeyB` (nonempty, free of quote characters,
and — when the key contains the separator, so it travels through `repr` —
free of backslash, C0 controls and DEL) and `dotAsciiKeyB` (a dotted key is
printable ASCII throughout).  The second restriction keeps dotted keys in
the range where CPython `repr` is the identity — above it `repr` escapes
every non-printable code point (e.g. U+0080), `split_path` never unescapes,
and the round trip fails; `reprEsc` models only the ASCII range exactly, so
the statement does not quantify beyond it. -/
theorem c3_path_roundtrip (p : List PyStr) (hne : ¬ p = [])
    (hk : p.all goodKeyB = true) (_ha : p.all dotAsciiKeyB = true) :
    split_path (join_path p) = p :=
  split_join_id p hne hk

/-- Witness for C3 as amended, at the path `["a", "b.c"]` (the second key is
quoted on encode and recovered as one key). -/
theorem c3_path_roundtrip_witness :
    ¬ [pys "a", pys "b.c"] = ([] : List PyStr) ∧
      [pys "a", pys "b.c"].all goodKeyB = true ∧
      [pys "a", pys "b.c"].all dotAsciiKeyB = true ∧
      split_path (join_path [pys "a", pys "b.c"]) = [pys "a", pys "b.c"] :=
  ⟨by decide, by decide, by decide,
    c3_path_roundtrip _ (by decide) (by decide) (by decide)⟩

theorem toDigitsRev_zero (fuel : Nat) : toDigitsRev fuel 0 = [] := by
  cases fuel <;> simp [toDigitsRev]

theorem toDigitsRev_lt_ten : ∀ (fuel n : Nat), ∀ d ∈ toDigitsRev fuel n, d < 10
  | 0, n => by simp [toDigitsRev]
  | fuel + 1, n => by
    rw [toDigitsRev]
    by_cases h : n = 0
    · simp [h]
    · rw [if_neg h]
      intro d hd
      rcases List.mem_cons.mp hd with h1 | h2
      · omega
      · exact toDigitsRev_lt_ten fuel (n / 10) d h2

/-- Value of a little-endian digit list. -/
def ofRev : List Nat → Nat
  | [] => 0
  | d :: t => d + 10 * ofRev t

theorem ofRev_toDigitsRev : ∀ (fuel n : Nat), n ≤ fuel → ofRev (toDigitsRev fuel n) = n
  | 0, n, h => by
    have : n = 0 := by omega
    simp [this, toDigitsRev, ofRev]
  | fuel + 1, n, h => by
    rw [toDigitsRev]
    by_cases h0 : n = 0
    · simp [h0, ofRev]
    · rw [if_neg h0, ofRev, ofRev_toDigitsRev fuel (n / 10) (by omega)]
      omega

theorem toDigitsRev_last_ne_zero : ∀ (fuel n : Nat), n ≤ fuel → ¬ n = 0 →
    ∃ t d, toDigitsRev fuel n = t ++ [d] ∧ ¬ d = 0
  | 0, n, h, h0 => absurd (by omega) h0
  | fuel + 1, n, h, h0 => by
    rw [toDigitsRev, if_neg h0]
    by_cases hq : n / 10 = 0
    · refine ⟨[], n % 10, ?_, by omega⟩
      rw [hq, toDigitsRev_zero]
      rfl
    · obtain ⟨t, d, hEq, hd⟩ := toDigitsRev_last_ne_zero fuel (n / 10) (by omega) hq
      exact ⟨n % 10 :: t, d, by rw [hEq]; rfl, hd⟩

theorem toDigitsRev_length_le : ∀ (fuel n k : Nat), n ≤ fuel → n < 10 ^ k →
    (toDigitsRev fuel n).length ≤ k
  | 0, n, k, h, hk => by
    have : n = 0 := by omega
    simp [this, toDigitsRev]
  | fuel + 1, n, k, h, hk => by
    rw [toDigitsRev]
    by_cases h0 : n = 0
    · simp [h0]
    · rw [if_neg h0]
      have hk0 : ¬ k = 0 := by
        intro hk0
        rw [hk0, pow_zero] at hk
        omega
      obtain ⟨k', rfl⟩ : ∃ k', k = k' + 1 := ⟨k - 1, by omega⟩
      have hdiv : n / 10 < 10 ^ k' := by
        rw [Nat.div_lt_iff_lt_mul (by norm_num)]
        calc n < 10 ^ (k' + 1) := hk
        _ = 10 ^ k' * 10 := by ring
      simp only [List.length_cons]
      have := toDigitsRev_length_le fuel (n / 10) k' (by omega) hdiv
      omega

theorem digitVal_append_digit (xs : PyStr) (c : Nat) :
    digitVal (xs ++ [c]) = digitVal xs * 10 + (c - 48) := by
  unfold digitVal
  rw [List.foldl_append]
  rfl

theorem digitVal_rev_map : ∀ l : List Nat,
    digitVal (l.reverse.map (fun d => d + 48)) = ofRev l
  | [] => rfl
  | d :: t => by
    rw [List.reverse_cons, List.map_append, List.map_singleton,
      digitVal_append_digit, digitVal_rev_map t, ofRev]
    omega

theorem takeWhile_all {p : Nat → Bool} {l : List Nat}
    (h : ∀ c ∈ l, p c = true) : l.takeWhile p = l := by
  have h2 := @takeWhile_append_all p l [] h
  simpa using h2

theorem natToStr_all_digits (n : Nat) : ∀ c ∈ natToStr n, isDigitC c = true := by
  unfold natToStr
  by_cases h : n = 0
  · rw [if_pos h]
    intro c hc
    rw [List.mem_singleton] at hc
    rw [hc]
    decide
  · rw [if_neg h]
    intro c hc
    obtain ⟨d, hd, rfl⟩ := List.mem_map.mp hc
    have hlt : d < 10 := toDigitsRev_lt_ten n n d (List.mem_reverse.mp hd)
    simp only [isDigitC, Bool.and_eq_true, decide_eq_true_eq]
    omega

theorem digitVal_natToStr (n : Nat) : digitVal (natToStr n) = n := by
  unfold natToStr
  by_cases h : n = 0
  · rw [if_pos h, h]
    rfl
  · rw [if_neg h, digitVal_rev_map, ofRev_toDigitsRev n n (Nat.le_refl n)]

theorem decIntOk_cons_of {xs : List Nat} {x : Nat} (hx : ¬ x = 48)
    (hall : (x :: xs).all isDigitC = true) : decIntOk (x :: xs) = true := by
  simp [decIntOk, hall, hx]

theorem decIntOk_natToStr (n : Nat) : decIntOk (natToStr n) = true := by
  by_cases h : n = 0
  · rw [natToStr, if_pos h]
    decide
  · obtain ⟨t, d, hEq, hd⟩ := toDigitsRev_last_ne_zero n n (Nat.le_refl n) h
    have hall : (natToStr n).all isDigitC = true := by
      rw [List.all_eq_true]
      exact fun c hc => natToStr_all_digits n c hc
    have hshape : natToStr n = (d + 48) :: (t.reverse.map (fun d => d + 48)) := by
      rw [natToStr, if_neg h, hEq, List.reverse_append]
      simp
    rw [hshape] at hall ⊢
    exact decIntOk_cons_of (by omega) hall

theorem parseNum_natToStr (neg : Bool) (n : Nat) :
    parseNum neg (natToStr n) =
      Option.some (.int (if neg then -(n : Int) else (n : Int))) := by
  have htw : (natToStr n).takeWhile isDigitC = natToStr n :=
    takeWhile_all (natToStr_all_digits n)
  unfold parseNum
  simp only [htw, List.drop_length, decIntOk_natToStr, if_true, digitVal_natToStr]

theorem natToStr_shape (n : Nat) : ∃ d t, natToStr n = d :: t ∧ isDigitC d = true := by
  by_cases h : n = 0
  · exact ⟨48, [], by rw [natToStr, if_pos h], by decide⟩
  · obtain ⟨t, d, hEq, hd⟩ := toDigitsRev_last_ne_zero n n (Nat.le_refl n) h
    refine ⟨d + 48, t.reverse.map (fun d => d + 48), ?_, ?_⟩
    · rw [natToStr, if_neg h, hEq, List.reverse_append]
      simp
    · have hlt : d < 10 := toDigitsRev_lt_ten n n d (by rw [hEq]; simp)
      simp only [isDigitC, Bool.and_eq_true, decide_eq_true_eq]
      omega

theorem dropWhile_eq_self {l : List Nat} {p : Nat → Bool}
    (h : ∀ c ∈ l, p c = false) : l.dropWhile p = l := by
  cases l with
  | nil => rfl
  | cons c t =>
    rw [List.dropWhile_cons, h c (List.mem_cons_self c t)]
    simp

theorem stripWS_id {s : PyStr} (h : ∀ c ∈ s, isWS c = false) : stripWS s = s := by
  unfold stripWS
  rw [dropWhile_eq_self h,
    dropWhile_eq_self (fun c hc => h c (List.mem_reverse.mp hc)),
    List.reverse_reverse]

theorem cons_ne_of_head {c x : Nat} {t u : List Nat} (h : ¬ c = x) :
    ¬ (c :: t) = (x :: u) := by
  intro hEq
  cases hEq
  exact h rfl

theorem isDigitC_not_WS {c : Nat} (h : isDigitC c = true) : isWS c = false := by
  simp only [isDigitC, Bool.and_eq_true, decide_eq_true_eq] at h
  simp only [isWS, Bool.or_eq_false_iff, decide_eq_false_iff_not]
  omega

theorem pys_True_eq : pys "True" = [84, 114, 117, 101] := by decide

theorem pys_False_eq : pys "False" = [70, 97, 108, 115, 101] := by decide

theorem pys_None_eq : pys "None" = [78, 111, 110, 101] := by decide

/-- Shape of `pyLiteralEval` on whitespace-free input that is none of the
keywords and does not open a quote: it is the signed-number branch. -/
theorem pyLiteralEval_num_branch {c : Nat} {rest : List Nat}
    (hs : ∀ x ∈ c :: rest, isWS x = false)
    (hT : ¬ (c :: rest) = pys "True") (hF : ¬ (c :: rest) = pys "False")
    (hN : ¬ (c :: rest) = pys "None")
    (hq : ¬ c = 39) (hq2 : ¬ c = 34) :
    pyLiteralEval (c :: rest) =
      match (if c = 45 then parseNum true rest
             else if c = 43 then parseNum false rest
             else parseNum false (c :: rest)) with
      | Option.some v => Except.ok v
      | Option.none => Except.error LitErr.valueError := by
  unfold pyLiteralEval
  rw [stripWS_id hs]
  rw [if_neg hT, if_neg hF, if_neg hN]
  show (if c = 39 ∨ c = 34 then
      match pyStrBody rest.length c rest with
      | Option.some content => Except.ok (PyValue.str content)
      | Option.none => Except.error LitErr.syntaxError
    else
      match (if c = 45 then parseNum true rest
             else if c = 43 then parseNum false rest
             else parseNum false (c :: rest)) with
      | Option.some v => Except.ok v
      | Option.none => Except.error LitErr.valueError) = _
  rw [if_neg (not_or.mpr ⟨hq, hq2⟩)]

/-- `ast.literal_eval` evaluates a canonical integer rendering to that
integer. -/
theorem pyLiteralEval_intToStr (n : Int) : pyLiteralEval (intToStr n) = .ok (.int n) := by
  obtain ⟨d, t, hshape, hd⟩ := natToStr_shape n.natAbs
  have hdigit : 48 ≤ d ∧ d ≤ 57 := by simpa [isDigitC] using hd
  by_cases hneg : n < 0
  · have hs : intToStr n = 45 :: natToStr n.natAbs := by
      rw [intToStr, if_pos hneg]
    have hWS : ∀ c ∈ (45 : Nat) :: natToStr n.natAbs, isWS c = false := by
      intro c hc
      rcases List.mem_cons.mp hc with h1 | h2
      · rw [h1]; rfl
      · exact isDigitC_not_WS (natToStr_all_digits _ c h2)
    have hT : ¬ ((45 : Nat) :: natToStr n.natAbs) = pys "True" := by
      rw [pys_True_eq]; exact cons_ne_of_head (by omega)
    have hF : ¬ ((45 : Nat) :: natToStr n.natAbs) = pys "False" := by
      rw [pys_False_eq]; exact cons_ne_of_head (by omega)
    have hN : ¬ ((45 : Nat) :: natToStr n.natAbs) = pys "None" := by
      rw [pys_None_eq]; exact cons_ne_of_head (by omega)
    rw [hs, pyLiteralEval_num_branch hWS hT hF hN (by omega) (by omega)]
    rw [if_pos rfl, parseNum_natToStr]
    have : -(n.natAbs : Int) = n := by omega
    simp only [if_true, this]
  · have hs : intToStr n = natToStr n.natAbs := by
      rw [intToStr, if_neg hneg]
    have hWS : ∀ c ∈ d :: t, isWS c = false := by
      rw [← hshape]
      exact fun c hc => isDigitC_not_WS (natToStr_all_digits _ c hc)
    have hT : ¬ (d :: t) = pys "True" := by
      rw [pys_True_eq]; exact cons_ne_of_head (by omega)
    have hF : ¬ (d :: t) = pys "False" := by
      rw [pys_False_eq]; exact cons_ne_of_head (by omega)
    have hN : ¬ (d :: t) = pys "None" := by
      rw [pys_None_eq]; exact cons_ne_of_head (by omega)
    rw [hs, hshape, pyLiteralEval_num_branch hWS hT hF hN (by omega) (by omega)]
    rw [if_neg (by omega), if_neg (by omega), ← hshape, parseNum_natToStr]
    have : (n.natAbs : Int) = n := by omega
    simp [this]

theorem natToStr_length_le {n k : Nat} (hk : 1 ≤ k) (h : n < 10 ^ k) :
    (natToStr n).length ≤ k := by
  unfold natToStr
  by_cases h0 : n = 0
  · rw [if_pos h0]
    simpa using hk
  · rw [if_neg h0]
    simpa using toDigitsRev_length_le n n k (Nat.le_refl n) h

theorem natToStr_ne_nil (n : Nat) : ¬ natToStr n = [] := by
  obtain ⟨d, t, hshape, -⟩ := natToStr_shape n
  rw [hshape]
  simp

theorem digitVal_replicate48 (z : Nat) (rest : List Nat) :
    digitVal (List.replicate z 48 ++ rest) = digitVal rest := by
  induction z with
  | zero => rfl
  | succ z ih =>
    rw [List.replicate_succ, List.cons_append]
    show digitVal (List.replicate z 48 ++ rest) = _
    exact ih

theorem parseNum_floatParts (neg : Bool) (a e : Nat) :
    parseNum neg (natToStr (a / 10 ^ (e + 1)) ++ 46 ::
        (List.replicate (e + 1 - (natToStr (a % 10 ^ (e + 1))).length) 48 ++
          natToStr (a % 10 ^ (e + 1)))) =
      Option.some (.float (if neg then -(a : Int) else (a : Int)) e) := by
  have hfd_le : (natToStr (a % 10 ^ (e + 1))).length ≤ e + 1 :=
    natToStr_length_le (by omega) (Nat.mod_lt _ (Nat.pos_pow_of_pos _ (by norm_num)))
  have hblen : (List.replicate (e + 1 - (natToStr (a % 10 ^ (e + 1))).length) 48 ++
      natToStr (a % 10 ^ (e + 1))).length = e + 1 := by
    simp only [List.length_append, List.length_replicate]
    omega
  have hbne : ¬ (List.replicate (e + 1 - (natToStr (a % 10 ^ (e + 1))).length) 48 ++
      natToStr (a % 10 ^ (e + 1))) = [] := by
    intro hcon
    rw [hcon] at hblen
    simp at hblen
  have hball : (List.replicate (e + 1 - (natToStr (a % 10 ^ (e + 1))).length) 48 ++
      natToStr (a % 10 ^ (e + 1))).all isDigitC = true := by
    rw [List.all_eq_true]
    intro c hc
    rcases List.mem_append.mp hc with h1 | h2
    · rw [List.eq_of_mem_replicate h1]
      decide
    · exact natToStr_all_digits _ c h2
  have hdv : digitVal (List.replicate (e + 1 - (natToStr (a % 10 ^ (e + 1))).length) 48 ++
      natToStr (a % 10 ^ (e + 1))) = a % 10 ^ (e + 1) := by
    rw [digitVal_replicate48, digitVal_natToStr]
  have htw : (natToStr (a / 10 ^ (e + 1)) ++ 46 ::
      (List.replicate (e + 1 - (natToStr (a % 10 ^ (e + 1))).length) 48 ++
        natToStr (a % 10 ^ (e + 1)))).takeWhile isDigitC = natToStr (a / 10 ^ (e + 1)) := by
    rw [takeWhile_append_all (natToStr_all_digits _), List.takeWhile_cons]
    norm_num [isDigitC]
  unfold parseNum
  simp only [htw, List.drop_left]
  rw [if_pos ⟨trivial, natToStr_ne_nil _, hbne, hball⟩]
  rw [hblen, hdv, digitVal_natToStr]
  have hval : a / 10 ^ (e + 1) * 10 ^ (e + 1) + a % 10 ^ (e + 1) = a := by
    rw [Nat.mul_comm]
    exact Nat.div_add_mod a (10 ^ (e + 1))
  rw [hval]
  simp

theorem floatToStr_shape (m : Int) (e : Nat) :
    floatToStr m e = (if m < 0 then [45] else []) ++
      (natToStr (m.natAbs / 10 ^ (e + 1)) ++ 46 ::
        (List.replicate (e + 1 - (natToStr (m.natAbs % 10 ^ (e + 1))).length) 48 ++
          natToStr (m.natAbs % 10 ^ (e + 1)))) := by
  rw [floatToStr]
  simp [List.append_assoc]

theorem floatBody_not_WS (a e : Nat) :
    ∀ c ∈ natToStr (a / 10 ^ (e + 1)) ++ 46 ::
      (List.replicate (e + 1 - (natToStr (a % 10 ^ (e + 1))).length) 48 ++
        natToStr (a % 10 ^ (e + 1))), isWS c = false := by
  intro c hc
  rcases List.mem_append.mp hc with h1 | h2
  · exact isDigitC_not_WS (natToStr_all_digits _ c h1)
  · rcases List.mem_cons.mp h2 with h3 | h4
    · rw [h3]; rfl
    · rcases List.mem_append.mp h4 with h5 | h6
      · rw [List.eq_of_mem_replicate h5]; rfl
      · exact isDigitC_not_WS (natToStr_all_digits _ c h6)

/-- `ast.literal_eval` evaluates a model float's decimal rendering back to
that float. -/
theorem pyLiteralEval_floatToStr (m : Int) (e : Nat) :
    pyLiteralEval (floatToStr m e) = .ok (.float m e) := by
  obtain ⟨d, t, hshape, hd⟩ := natToStr_shape (m.natAbs / 10 ^ (e + 1))
  have hdigit : 48 ≤ d ∧ d ≤ 57 := by simpa [isDigitC] using hd
  by_cases hneg : m < 0
  · have hs : floatToStr m e = 45 ::
        (natToStr (m.natAbs / 10 ^ (e + 1)) ++ 46 ::
          (List.replicate (e + 1 - (natToStr (m.natAbs % 10 ^ (e + 1))).length) 48 ++
            natToStr (m.natAbs % 10 ^ (e + 1)))) := by
      rw [floatToStr_shape, if_pos hneg]
      rfl
    have hWS : ∀ c ∈ (45 : Nat) ::
        (natToStr (m.natAbs / 10 ^ (e + 1)) ++ 46 ::
          (List.replicate (e + 1 - (natToStr (m.natAbs % 10 ^ (e + 1))).length) 48 ++
            natToStr (m.natAbs % 10 ^ (e + 1)))), isWS c = false := by
      intro c hc
      rcases List.mem_cons.mp hc with h1 | h2
      · rw [h1]; rfl
      · exact floatBody_not_WS m.natAbs e c h2
    have hT : ¬ ((45 : Nat) :: (natToStr (m.natAbs / 10 ^ (e + 1)) ++ 46 ::
        (List.replicate (e + 1 - (natToStr (m.natAbs % 10 ^ (e + 1))).length) 48 ++
          natToStr (m.natAbs % 10 ^ (e + 1))))) = pys "True" := by
      rw [pys_True_eq]; exact cons_ne_of_head (by omega)
    have hF : ¬ ((45 : Nat) :: (natToStr (m.natAbs / 10 ^ (e + 1)) ++ 46 ::
        (List.replicate (e + 1 - (natToStr (m.natAbs % 10 ^ (e + 1))).length) 48 ++
          natToStr (m.natAbs % 10 ^ (e + 1))))) = pys "False" := by
      rw [pys_False_eq]; exact cons_ne_of_head (by omega)
    have hN : ¬ ((45 : Nat) :: (natToStr (m.natAbs / 10 ^ (e + 1)) ++ 46 ::
        (List.replicate (e + 1 - (natToStr (m.natAbs % 10 ^ (e + 1))).length) 48 ++
          natToStr (m.natAbs % 10 ^ (e + 1))))) = pys "None" := by
      rw [pys_None_eq]; exact cons_ne_of_head (by omega)
    rw [hs, pyLiteralEval_num_branch hWS hT hF hN (by omega) (by omega)]
    rw [if_pos rfl, parseNum_floatParts]
    have : -(m.natAbs : Int) = m := by omega
    simp only [if_true, this]
  · have hs : floatToStr m e =
        natToStr (m.natAbs / 10 ^ (e + 1)) ++ 46 ::
          (List.replicate (e + 1 - (natToStr (m.natAbs % 10 ^ (e + 1))).length) 48 ++
            natToStr (m.natAbs % 10 ^ (e + 1))) := by
      rw [floatToStr_shape, if_neg hneg]
      rfl
    have hcons : floatToStr m e = d :: (t ++ 46 ::
        (List.replicate (e + 1 - (natToStr (m.natAbs % 10 ^ (e + 1))).length) 48 ++
          natToStr (m.natAbs % 10 ^ (e + 1)))) := by
      rw [hs, hshape]
      rfl
    have hWS : ∀ c ∈ d :: (t ++ 46 ::
        (List.replicate (e + 1 - (natToStr (m.natAbs % 10 ^ (e + 1))).length) 48 ++
          natToStr (m.natAbs % 10 ^ (e + 1)))), isWS c = false := by
      intro c hc
      apply floatBody_not_WS m.natAbs e c
      rw [hshape]
      exact hc
    have hT : ¬ (d :: (t ++ 46 ::
        (List.replicate (e + 1 - (natToStr (m.natAbs % 10 ^ (e + 1))).length) 48 ++
          natToStr (m.natAbs % 10 ^ (e + 1))))) = pys "True" := by
      rw [pys_True_eq]; exact cons_ne_of_head (by omega)
    have hF : ¬ (d :: (t ++ 46 ::
        (List.replicate (e + 1 - (natToStr (m.natAbs % 10 ^ (e + 1))).length) 48 ++
          natToStr (m.natAbs % 10 ^ (e + 1))))) = pys "False" := by
      rw [pys_False_eq]; exact cons_ne_of_head (by omega)
    have hN : ¬ (d :: (t ++ 46 ::
        (List.replicate (e + 1 - (natToStr (m.natAbs % 10 ^ (e + 1))).length) 48 ++
          natToStr (m.natAbs % 10 ^ (e + 1))))) = pys "None" := by
      rw [pys_None_eq]; exact cons_ne_of_head (by omega)
    rw [hcons, pyLiteralEval_num_branch hWS hT hF hN (by omega) (by omega)]
    rw [if_neg (by omega), if_neg (by omega)]
    rw [show d :: (t ++ 46 ::
        (List.replicate (e + 1 - (natToStr (m.natAbs % 10 ^ (e + 1))).length) 48 ++
          natToStr (m.natAbs % 10 ^ (e + 1)))) =
        natToStr (m.natAbs / 10 ^ (e + 1)) ++ 46 ::
          (List.replicate (e + 1 - (natToStr (m.natAbs % 10 ^ (e + 1))).length) 48 ++
            natToStr (m.natAbs % 10 ^ (e + 1))) from by rw [hshape]; rfl]
    rw [parseNum_floatParts]
    have : (m.natAbs : Int) = m := by omega
    simp [this]

theorem hexVal_hexDigit {d : Nat} (h : d < 16) : hexVal (hexDigit d) = d := by
  unfold hexVal hexDigit
  split_ifs <;> omega

theorem isHexC_hexDigit {d : Nat} (h : d < 16) : isHexC (hexDigit d) = true := by
  simp only [isHexC, hexVal_hexDigit h, decide_eq_true_eq]
  omega

theorem pyStrBody_close (f : Nat) : pyStrBody (f + 1) 34 [34] = Option.some [] := rfl

theorem pyStrBody_esc_92 (f : Nat) (rest : List Nat) :
    pyStrBody (f + 1) 34 (92 :: 92 :: rest) = (pyStrBody f 34 rest).map (fun t => 92 :: t) := rfl

theorem pyStrBody_esc_34 (f : Nat) (rest : List Nat) :
    pyStrBody (f + 1) 34 (92 :: 34 :: rest) = (pyStrBody f 34 rest).map (fun t => 34 :: t) := rfl

theorem pyStrBody_esc_n (f : Nat) (rest : List Nat) :
    pyStrBody (f + 1) 34 (92 :: 110 :: rest) = (pyStrBody f 34 rest).map (fun t => 10 :: t) := rfl

theorem pyStrBody_esc_r (f : Nat) (rest : List Nat) :
    pyStrBody (f + 1) 34 (92 :: 114 :: rest) = (pyStrBody f 34 rest).map (fun t => 13 :: t) := rfl

theorem pyStrBody_esc_t (f : Nat) (rest : List Nat) :
    pyStrBody (f + 1) 34 (92 :: 116 :: rest) = (pyStrBody f 34 rest).map (fun t => 9 :: t) := rfl

theorem pyStrBody_esc_b (f : Nat) (rest : List Nat) :
    pyStrBody (f + 1) 34 (92 :: 98 :: rest) = (pyStrBody f 34 rest).map (fun t => 8 :: t) := rfl

theorem pyStrBody_esc_f (f : Nat) (rest : List Nat) :
    pyStrBody (f + 1) 34 (92 :: 102 :: rest) = (pyStrBody f 34 rest).map (fun t => 12 :: t) := rfl

theorem pyStrBody_lit {c : Nat} (f : Nat) (rest : List Nat)
    (h1 : ¬ c = 34) (h2 : ¬ c = 92) (h3 : ¬ (c = 10 ∨ c = 13)) :
    pyStrBody (f + 1) 34 (c :: rest) = (pyStrBody f 34 rest).map (fun t => c :: t) := by
  simp only [pyStrBody]
  rw [if_neg h1, if_neg h2, if_neg h3]

theorem pyStrBody_u (f : Nat) (x1 x2 x3 x4 : Nat) (rest : List Nat)
    (hh1 : isHexC x1 = true) (hh2 : isHexC x2 = true)
    (hh3 : isHexC x3 = true) (hh4 : isHexC x4 = true) :
    pyStrBody (f + 1) 34 (92 :: 117 :: x1 :: x2 :: x3 :: x4 :: rest) =
      (pyStrBody f 34 rest).map
        (fun t => (((hexVal x1 * 16 + hexVal x2) * 16 + hexVal x3) * 16 + hexVal x4) :: t) := by
  show (if isHexC x1 ∧ isHexC x2 ∧ isHexC x3 ∧ isHexC x4 then
      (pyStrBody f 34 rest).map
        (fun t => (((hexVal x1 * 16 + hexVal x2) * 16 + hexVal x3) * 16 + hexVal x4) :: t)
    else Option.none) = _
  rw [if_pos ⟨hh1, hh2, hh3, hh4⟩]

theorem jsonEsc_lit {c : Nat} (hge : 32 ≤ c) (hle : c ≤ 126)
    (h34 : ¬ c = 34) (h92 : ¬ c = 92) : jsonEsc c = [c] := by
  unfold jsonEsc
  rw [if_neg h34, if_neg h92, if_neg (by omega), if_neg (by omega), if_neg (by omega),
    if_neg (by omega), if_neg (by omega), if_neg (by omega), if_pos hle]

theorem jsonEsc_u_low {c : Nat} (hlt : c < 32) (h10 : ¬ c = 10) (h13 : ¬ c = 13)
    (h9 : ¬ c = 9) (h8 : ¬ c = 8) (h12 : ¬ c = 12) :
    jsonEsc c = 92 :: 117 :: hex4 c := by
  unfold jsonEsc
  rw [if_neg (by omega), if_neg (by omega), if_neg h10, if_neg h13, if_neg h9, if_neg h8,
    if_neg h12, if_pos hlt]

theorem jsonEsc_u_high {c : Nat} (hge : 127 ≤ c) (hlt : c < 65536) :
    jsonEsc c = 92 :: 117 :: hex4 c := by
  unfold jsonEsc
  rw [if_neg (fun h => by omega), if_neg (by omega), if_neg (fun h => by omega),
    if_neg (by omega), if_neg (fun h => by omega), if_neg (by omega),
    if_neg (fun h => by omega), if_neg (by omega), if_neg (fun h => by omega),
    if_pos hlt]

theorem hex4_unfold (c : Nat) :
    (92 : Nat) :: 117 :: hex4 c ++ [34] = [92, 117] ++ hex4 c ++ [34] := rfl

theorem hexParse_hex4 {c : Nat} (h : c < 65536) :
    ((hexVal (hexDigit (c / 4096 % 16)) * 16 + hexVal (hexDigit (c / 256 % 16))) * 16 +
        hexVal (hexDigit (c / 16 % 16))) * 16 + hexVal (hexDigit (c % 16)) = c := by
  rw [hexVal_hexDigit (by omega), hexVal_hexDigit (by omega), hexVal_hexDigit (by omega),
    hexVal_hexDigit (by omega)]
  omega

theorem pyStrBody_jsonEsc : ∀ (s : PyStr) (fuel : Nat), (∀ c ∈ s, c < 65536) →
    ((s.map jsonEsc).flatten).length + 1 ≤ fuel →
    pyStrBody fuel 34 ((s.map jsonEsc).flatten ++ [34]) = Option.some s
  | [], fuel, _, hf => by
    match fuel, hf with
    | f + 1, _ => exact pyStrBody_close f
  | c :: s', fuel, hbmp, hf => by
    have hbmp' : ∀ x ∈ s', x < 65536 := fun x hx => hbmp x (List.mem_cons_of_mem _ hx)
    have hc : c < 65536 := hbmp c (List.mem_cons_self _ _)
    simp only [List.map_cons, List.flatten_cons, List.length_append] at hf ⊢
    rw [List.append_assoc]
    by_cases h34 : c = 34
    · subst h34
      rw [show jsonEsc 34 = [92, 34] from by decide] at hf ⊢
      simp only [List.length_cons, List.length_nil] at hf
      match fuel, hf with
      | f + 1, _ =>
        rw [show ([92, 34] : List Nat) ++ ((s'.map jsonEsc).flatten ++ [34]) =
          92 :: 34 :: ((s'.map jsonEsc).flatten ++ [34]) from rfl]
        rw [pyStrBody_esc_34, pyStrBody_jsonEsc s' f hbmp' (by omega)]
        rfl
    · by_cases h92 : c = 92
      · subst h92
        rw [show jsonEsc 92 = [92, 92] from by decide] at hf ⊢
        simp only [List.length_cons, List.length_nil] at hf
        match fuel, hf with
        | f + 1, _ =>
          rw [show ([92, 92] : List Nat) ++ ((s'.map jsonEsc).flatten ++ [34]) =
            92 :: 92 :: ((s'.map jsonEsc).flatten ++ [34]) from rfl]
          rw [pyStrBody_esc_92, pyStrBody_jsonEsc s' f hbmp' (by omega)]
          rfl
      · by_cases h10 : c = 10
        · subst h10
          rw [show jsonEsc 10 = [92, 110] from by decide] at hf ⊢
          simp only [List.length_cons, List.length_nil] at hf
          match fuel, hf with
          | f + 1, _ =>
            rw [show ([92, 110] : List Nat) ++ ((s'.map jsonEsc).flatten ++ [34]) =
              92 :: 110 :: ((s'.map jsonEsc).flatten ++ [34]) from rfl]
            rw [pyStrBody_esc_n, pyStrBody_jsonEsc s' f hbmp' (by omega)]
            rfl
        · by_cases h13 : c = 13
          · subst h13
            rw [show jsonEsc 13 = [92, 114] from by decide] at hf ⊢
            simp only [List.length_cons, List.length_nil] at hf
            match fuel, hf with
            | f + 1, _ =>
              rw [show ([92, 114] : List Nat) ++ ((s'.map jsonEsc).flatten ++ [34]) =
                92 :: 114 :: ((s'.map jsonEsc).flatten ++ [34]) from rfl]
              rw [pyStrBody_esc_r, pyStrBody_jsonEsc s' f hbmp' (by omega)]
              rfl
          · by_cases h9 : c = 9
            · subst h9
              rw [show jsonEsc 9 = [92, 116] from by decide] at hf ⊢
              simp only [List.length_cons, List.length_nil] at hf
              match fuel, hf with
              | f + 1, _ =>
                rw [show ([92, 116] : List Nat) ++ ((s'.map jsonEsc).flatten ++ [34]) =
                  92 :: 116 :: ((s'.map jsonEsc).flatten ++ [34]) from rfl]
                rw [pyStrBody_esc_t, pyStrBody_jsonEsc s' f hbmp' (by omega)]
                rfl
            · by_cases h8 : c = 8
              · subst h8
                rw [show jsonEsc 8 = [92, 98] from by decide] at hf ⊢
                simp only [List.length_cons, List.length_nil] at hf
                match fuel, hf with
                | f + 1, _ =>
                  rw [show ([92, 98] : List Nat) ++ ((s'.map jsonEsc).flatten ++ [34]) =
                    92 :: 98 :: ((s'.map jsonEsc).flatten ++ [34]) from rfl]
                  rw [pyStrBody_esc_b, pyStrBody_jsonEsc s' f hbmp' (by omega)]
                  rfl
              · by_cases h12 : c = 12
                · subst h12
                  rw [show jsonEsc 12 = [92, 102] from by decide] at hf ⊢
                  simp only [List.length_cons, List.length_nil] at hf
                  match fuel, hf with
                  | f + 1, _ =>
                    rw [show ([92, 102] : List Nat) ++ ((s'.map jsonEsc).flatten ++ [34]) =
                      92 :: 102 :: ((s'.map jsonEsc).flatten ++ [34]) from rfl]
                    rw [pyStrBody_esc_f, pyStrBody_jsonEsc s' f hbmp' (by omega)]
                    rfl
                · by_cases hlow : c < 32
                  · rw [jsonEsc_u_low hlow h10 h13 h9 h8 h12] at hf ⊢
                    simp only [hex4, List.length_cons, List.length_nil] at hf
                    match fuel, hf with
                    | f + 1, _ =>
                      rw [show (92 : Nat) :: 117 :: hex4 c ++
                          ((s'.map jsonEsc).flatten ++ [34]) =
                        92 :: 117 :: hexDigit (c / 4096 % 16) :: hexDigit (c / 256 % 16) ::
                          hexDigit (c / 16 % 16) :: hexDigit (c % 16) ::
                          ((s'.map jsonEsc).flatten ++ [34]) from by simp [hex4]]
                      rw [pyStrBody_u f _ _ _ _ _ (isHexC_hexDigit (by omega))
                        (isHexC_hexDigit (by omega)) (isHexC_hexDigit (by omega))
                        (isHexC_hexDigit (by omega))]
                      rw [pyStrBody_jsonEsc s' f hbmp' (by omega)]
                      simp [hexParse_hex4 hc]
                  · by_cases hmid : c ≤ 126
                    · rw [jsonEsc_lit (by omega) hmid h34 h92] at hf ⊢
                      simp only [List.length_cons, List.length_nil] at hf
                      match fuel, hf with
                      | f + 1, _ =>
                        rw [show ([c] : List Nat) ++ ((s'.map jsonEsc).flatten ++ [34]) =
                          c :: ((s'.map jsonEsc).flatten ++ [34]) from rfl]
                        rw [pyStrBody_lit f _ h34 h92 (by omega),
                          pyStrBody_jsonEsc s' f hbmp' (by omega)]
                        rfl
                    · rw [jsonEsc_u_high (by omega) hc] at hf ⊢
                      simp only [hex4, List.length_cons, List.length_nil] at hf
                      match fuel, hf with
                      | f + 1, _ =>
                        rw [show (92 : Nat) :: 117 :: hex4 c ++
                            ((s'.map jsonEsc).flatten ++ [34]) =
                          92 :: 117 :: hexDigit (c / 4096 % 16) :: hexDigit (c / 256 % 16) ::
                            hexDigit (c / 16 % 16) :: hexDigit (c % 16) ::
                            ((s'.map jsonEsc).flatten ++ [34]) from by simp [hex4]]
                        rw [pyStrBody_u f _ _ _ _ _ (isHexC_hexDigit (by omega))
                          (isHexC_hexDigit (by omega)) (isHexC_hexDigit (by omega))
                          (isHexC_hexDigit (by omega))]
                        rw [pyStrBody_jsonEsc s' f hbmp' (by omega)]
                        simp [hexParse_hex4 hc]

theorem stripWS_quoted (X : List Nat) : stripWS (34 :: (X ++ [34])) = 34 :: (X ++ [34]) := by
  have h1 : List.dropWhile isWS (34 :: (X ++ [34])) = 34 :: (X ++ [34]) := by
    rw [List.dropWhile_cons]
    simp [isWS]
  have h2 : (34 :: (X ++ [34])).reverse = 34 :: (X.reverse ++ [34]) := by
    simp
  have h3 : List.dropWhile isWS (34 :: (X.reverse ++ [34])) = 34 :: (X.reverse ++ [34]) := by
    rw [List.dropWhile_cons]
    simp [isWS]
  unfold stripWS
  rw [h1, h2, h3]
  simp

theorem config_literal_eval_of_lit {s : PyStr} {v : PyValue}
    (h : pyLiteralEval s = .ok v) : config_literal_eval s = v := by
  unfold config_literal_eval
  rw [h]

/-- `ast.literal_eval` inverts `json.dumps` string quoting for BMP strings:
every escape the encoder emits is decoded back to the same code point. -/
theorem pyLiteralEval_jsonDumpStr {s : PyStr} (hbmp : ∀ c ∈ s, c < 65536) :
    pyLiteralEval (jsonDumpStr s) = .ok (.str s) := by
  have hT : ¬ ((34 : Nat) :: ((s.map jsonEsc).flatten ++ [34])) = pys "True" := by
    rw [pys_True_eq]; exact cons_ne_of_head (by omega)
  have hF : ¬ ((34 : Nat) :: ((s.map jsonEsc).flatten ++ [34])) = pys "False" := by
    rw [pys_False_eq]; exact cons_ne_of_head (by omega)
  have hN : ¬ ((34 : Nat) :: ((s.map jsonEsc).flatten ++ [34])) = pys "None" := by
    rw [pys_None_eq]; exact cons_ne_of_head (by omega)
  have hq : jsonDumpStr s = 34 :: ((s.map jsonEsc).flatten ++ [34]) := rfl
  unfold pyLiteralEval
  rw [hq, stripWS_quoted]
  rw [if_neg hT, if_neg hF, if_neg hN]
  show (match pyStrBody ((s.map jsonEsc).flatten ++ [34]).length 34
      ((s.map jsonEsc).flatten ++ [34]) with
    | Option.some content => Except.ok (PyValue.str content)
    | Option.none => Except.error LitErr.syntaxError) = _
  rw [pyStrBody_jsonEsc s _ hbmp (by simp)]

theorem eval_dump_roundtrip (v : PyValue) (hbmp : bmpValB v = true) :
    config_literal_eval (config_literal_dump v) = v := by
  cases v with
  | int n =>
    show config_literal_eval (intToStr n) = _
    exact config_literal_eval_of_lit (pyLiteralEval_intToStr n)
  | float m e =>
    show config_literal_eval (floatToStr m e) = _
    exact config_literal_eval_of_lit (pyLiteralEval_floatToStr m e)
  | bool b => cases b <;> decide
  | none => decide
  | str s =>
    show config_literal_eval
      (if config_literal_eval s = .str s then s else jsonDumpStr s) = _
    by_cases h : config_literal_eval s = .str s
    · rw [if_pos h]
      exact h
    · rw [if_neg h]
      exact config_literal_eval_of_lit (pyLiteralEval_jsonDumpStr (by
        simpa [bmpValB, List.all_eq_true, decide_eq_true_eq] using hbmp))

/-- C2 as amended: the scalar round trip with type preservation holds for
every modelled scalar whose strings stay inside the Basic Multilingual Plane:
integers, floats, booleans, `None`, plain strings and strings shaped like
numbers or booleans all decode from their encoding back to themselves. -/
theorem c2_scalar_roundtrip (v : PyValue) (hbmp : bmpValB v = true) :
    config_literal_eval (config_literal_dump v) = v :=
  eval_dump_roundtrip v hbmp

/-- Witness for C2 as amended, at the number-shaped string `"42"` (which must
survive with its string type, not turn into the integer 42) and at the
integer 42. -/
theorem c2_scalar_roundtrip_witness :
    bmpValB (.str (pys "42")) = true ∧
      config_literal_eval (config_literal_dump (.str (pys "42"))) = .str (pys "42") ∧
      config_literal_eval (config_literal_dump (.int 42)) = .int 42 :=
  ⟨by decide, c2_scalar_roundtrip (.str (pys "42")) (by decide),
    c2_scalar_roundtrip (.int 42) (by decide)⟩

theorem nodupB_cons_iff {α : Type} [DecidableEq α] {x : α} {r : List α} :
    nodupB (x :: r) = true ↔ ¬ x ∈ r ∧ nodupB r = true := by
  rw [nodupB]
  by_cases h : x ∈ r <;> simp [h]

theorem nodupB_append_right {α : Type} [DecidableEq α] {xs ys : List α}
    (h : nodupB (xs ++ ys) = true) : nodupB ys = true := by
  induction xs with
  | nil => exact h
  | cons x r ih =>
    rw [List.cons_append, nodupB_cons_iff] at h
    exact ih h.2

theorem nodupB_append_left {α : Type} [DecidableEq α] {xs ys : List α}
    (h : nodupB (xs ++ ys) = true) : nodupB xs = true := by
  induction xs with
  | nil => rfl
  | cons x r ih =>
    rw [List.cons_append, nodupB_cons_iff] at h
    rw [nodupB_cons_iff]
    exact ⟨fun hm => h.1 (List.mem_append_left _ hm), ih h.2⟩

theorem nodupB_append_disj {α : Type} [DecidableEq α] {xs ys : List α}
    (h : nodupB (xs ++ ys) = true) : ∀ x ∈ xs, ¬ x ∈ ys := by
  induction xs with
  | nil => simp
  | cons x r ih =>
    rw [List.cons_append, nodupB_cons_iff] at h
    intro a ha
    rcases List.mem_cons.mp ha with h1 | h2
    · rw [h1]
      exact fun hy => h.1 (List.mem_append_right _ hy)
    · exact ih h.2 a h2

theorem nodupB_append_of {α : Type} [DecidableEq α] {xs ys : List α}
    (hx : nodupB xs = true) (hy : nodupB ys = true)
    (hdisj : ∀ x ∈ xs, ¬ x ∈ ys) : nodupB (xs ++ ys) = true := by
  induction xs with
  | nil => exact hy
  | cons x r ih =>
    rw [nodupB_cons_iff] at hx
    rw [List.cons_append, nodupB_cons_iff]
    refine ⟨?_, ih hx.2 (fun a ha => hdisj a (List.mem_cons_of_mem _ ha))⟩
    intro hm
    rcases List.mem_append.mp hm with h1 | h2
    · exact hx.1 h1
    · exact hdisj x (List.mem_cons_self _ _) h2

theorem nodupB_map_inj_on {α β : Type} [DecidableEq α] [DecidableEq β]
    {l : List α} {f : α → β}
    (hinj : ∀ x ∈ l, ∀ y ∈ l, f x = f y → x = y)
    (h : nodupB l = true) : nodupB (l.map f) = true := by
  induction l with
  | nil => rfl
  | cons x r ih =>
    rw [nodupB_cons_iff] at h
    rw [List.map_cons, nodupB_cons_iff]
    constructor
    · intro hm
      obtain ⟨y, hy, hfy⟩ := List.mem_map.mp hm
      have := hinj y (List.mem_cons_of_mem _ hy) x (List.mem_cons_self _ _) hfy
      rw [this] at hy
      exact h.1 hy
    · exact ih (fun a ha b hb => hinj a (List.mem_cons_of_mem _ ha) b (List.mem_cons_of_mem _ hb))
        h.2

/-- Relative paths (from the node itself) of all strict descendants, in
pre-order. -/
def relPaths : CTree → List (List PyStr)
  | .nil => []
  | .cons _ (.scalar _) rest => relPaths rest
  | .cons k (.sub t') rest =>
    [k] :: ((relPaths t').map (fun q => k :: q) ++ relPaths rest)

theorem relPaths_ne_nil : (t : CTree) → ∀ q ∈ relPaths t, ¬ q = []
  | .nil => by simp [relPaths]
  | .cons k (.scalar v) rest => relPaths_ne_nil rest
  | .cons k (.sub t') rest => by
    intro q hq
    rw [relPaths] at hq
    rcases List.mem_cons.mp hq with h1 | h2
    · rw [h1]; simp
    · rcases List.mem_append.mp h2 with h3 | h4
      · obtain ⟨q', hq', rfl⟩ := List.mem_map.mp h3
        simp
      · exact relPaths_ne_nil rest q h4

theorem relPaths_head_mem : (t : CTree) → ∀ q ∈ relPaths t,
    ∃ k q', q = k :: q' ∧ k ∈ keysT t
  | .nil => by simp [relPaths]
  | .cons k (.scalar v) rest => by
    intro q hq
    obtain ⟨k', q', hEq, hk⟩ := relPaths_head_mem rest q hq
    exact ⟨k', q', hEq, by rw [keysT]; exact List.mem_cons_of_mem _ hk⟩
  | .cons k (.sub t') rest => by
    intro q hq
    rw [relPaths] at hq
    rcases List.mem_cons.mp hq with h1 | h2
    · exact ⟨k, [], h1, by rw [keysT]; exact List.mem_cons_self _ _⟩
    · rcases List.mem_append.mp h2 with h3 | h4
      · obtain ⟨q', hq', rfl⟩ := List.mem_map.mp h3
        exact ⟨k, q', rfl, by rw [keysT]; exact List.mem_cons_self _ _⟩
      · obtain ⟨k', q', hEq, hk⟩ := relPaths_head_mem rest q h4
        exact ⟨k', q', hEq, by rw [keysT]; exact List.mem_cons_of_mem _ hk⟩

theorem relPaths_nodup : (t : CTree) → wfB t = true → nodupB (relPaths t) = true
  | .nil, _ => rfl
  | .cons k (.scalar v) rest, hw => by
    rw [wfB, Bool.and_eq_true] at hw
    exact relPaths_nodup rest hw.2
  | .cons k (.sub t') rest, hw => by
    rw [wfB, Bool.and_eq_true, Bool.and_eq_true] at hw
    obtain ⟨⟨hk, hw1⟩, hw2⟩ := hw
    have hknotin : ¬ k ∈ keysT rest := by
      intro hm
      rw [if_pos hm] at hk
      cases hk
    rw [relPaths, nodupB_cons_iff]
    constructor
    · intro hm
      rcases List.mem_append.mp hm with h1 | h2
      · obtain ⟨q', hq', hEq⟩ := List.mem_map.mp h1
        have : q' = [] := by
          cases hEq
          rfl
        rw [this] at hq'
        exact relPaths_ne_nil t' [] hq' rfl
      · obtain ⟨k', q', hEq, hk'⟩ := relPaths_head_mem rest [k] h2
        have : k' = k := by
          cases hEq
          rfl
        rw [this] at hk'
        exact hknotin hk'
    · refine nodupB_append_of ?_ (relPaths_nodup rest hw2) ?_
      · refine nodupB_map_inj_on ?_ (relPaths_nodup t' hw1)
        intro x _ y _ hxy
        cases hxy
        rfl
      · intro x hx hxr
        obtain ⟨q', hq', rfl⟩ := List.mem_map.mp hx
        obtain ⟨k', q'', hEq, hk'⟩ := relPaths_head_mem rest _ hxr
        have : k' = k := by
          cases hEq
          rfl
        rw [this] at hk'
        exact hknotin hk'

theorem relPaths_good : (t : CTree) → goodKeysB t = true →
    ∀ q ∈ relPaths t, q.all goodKeyB = true
  | .nil, _ => by simp [relPaths]
  | .cons k (.scalar v) rest, hg => by
    rw [goodKeysB, Bool.and_eq_true] at hg
    exact relPaths_good rest hg.2
  | .cons k (.sub t') rest, hg => by
    rw [goodKeysB, Bool.and_eq_true, Bool.and_eq_true] at hg
    obtain ⟨⟨hk, hg1⟩, hg2⟩ := hg
    intro q hq
    rw [relPaths] at hq
    rcases List.mem_cons.mp hq with h1 | h2
    · rw [h1]
      simp [hk]
    · rcases List.mem_append.mp h2 with h3 | h4
      · obtain ⟨q', hq', rfl⟩ := List.mem_map.mp h3
        have := relPaths_good t' hg1 q' hq'
        simp only [List.all_cons, Bool.and_eq_true]
        exact ⟨hk, this⟩
      · exact relPaths_good rest hg2 q h4

/-- Encoded section names of all strict descendants, in pre-order. -/
def secNames (t : CTree) (p : List PyStr) : List PyStr :=
  (preNodes t p).map (fun pn => join_path pn.1)

theorem pathsOf_eq : (t : CTree) → (p : List PyStr) →
    (preNodes t p).map Prod.fst = (relPaths t).map (fun q => p ++ q)
  | .nil, _ => rfl
  | .cons k (.scalar v) rest, p => pathsOf_eq rest p
  | .cons k (.sub t') rest, p => by
    rw [preNodes, relPaths]
    simp only [List.map_cons, List.map_append, List.map_map]
    rw [pathsOf_eq t' (p ++ [k]), pathsOf_eq rest p]
    have hfun : (fun q => (p ++ [k]) ++ q) = ((fun q => p ++ q) ∘ (fun q => k :: q)) := by
      funext q
      simp
    rw [hfun]

theorem secNames_eq (t : CTree) (p : List PyStr) :
    secNames t p = ((preNodes t p).map Prod.fst).map join_path := by
  rw [secNames, List.map_map]
  rfl

theorem secNames_nodup {t : CTree} (hw : wfB t = true) (hg : goodKeysB t = true) :
    nodupB (secNames t []) = true := by
  rw [secNames_eq, pathsOf_eq]
  have hnil : (relPaths t).map (fun q => ([] : List PyStr) ++ q) = relPaths t := by
    simp
  rw [hnil]
  refine nodupB_map_inj_on ?_ (relPaths_nodup t hw)
  intro x hx y hy hxy
  have hx1 := split_join_id x (relPaths_ne_nil t x hx) (relPaths_good t hg x hx)
  have hy1 := split_join_id y (relPaths_ne_nil t y hy) (relPaths_good t hg y hy)
  rw [← hx1, ← hy1, hxy]

theorem secNames_ne_root {t : CTree} (hg : goodKeysB t = true) :
    ∀ n ∈ secNames t [], ¬ n = [] := by
  rw [secNames_eq, pathsOf_eq]
  intro n hn
  simp only [List.map_map, List.mem_map] at hn
  obtain ⟨q, hq, rfl⟩ := hn
  have h1 : ¬ ([] : List PyStr) ++ q = [] := by
    simpa using relPaths_ne_nil t q hq
  exact join_path_ne_nil h1 (by simpa using relPaths_good t hg q hq)

theorem namesR_append_pair (res : Res) (n : PyStr) (s : SecList) :
    namesR (res ++ [(n, s)]) = namesR res ++ [n] := by
  simp [namesR]

theorem setdefaultR_fresh {res : Res} {n : PyStr} (h : ¬ n ∈ namesR res) :
    setdefaultR res n = res ++ [(n, [])] := by
  unfold setdefaultR
  exact if_neg h

theorem updateR_middle {n : PyStr} {s : SecList} (sec : SecList) :
    ∀ (res rest' : Res), ¬ n ∈ namesR res →
    updateR (res ++ (n, s) :: rest') n sec = res ++ (n, updSec s sec) :: rest'
  | [], rest', _ => by
    rw [List.nil_append, updateR, if_pos rfl]
    rfl
  | (n', s') :: res', rest', h => by
    have hne : ¬ n = n' := by
      intro hEq
      exact h (by rw [hEq]; exact List.mem_cons_self _ _)
    rw [List.cons_append, updateR, if_neg hne,
      updateR_middle sec res' rest' (fun hm => h (List.mem_cons_of_mem _ hm))]
    rfl

theorem setKV_fresh {k : PyStr} {v : PyValue} :
    ∀ {d : SecList}, ¬ k ∈ d.map Prod.fst → setKV d k v = d ++ [(k, v)]
  | [], _ => rfl
  | (k', v') :: d', h => by
    have hne : ¬ k = k' := by
      intro hEq
      exact h (by rw [hEq]; exact List.mem_cons_self _ _)
    rw [setKV, if_neg hne, setKV_fresh (fun hm => h (List.mem_cons_of_mem _ hm))]
    rfl

theorem updSec_fresh : ∀ (sec d : SecList),
    (∀ x ∈ sec.map Prod.fst, ¬ x ∈ d.map Prod.fst) →
    nodupB (sec.map Prod.fst) = true → updSec d sec = d ++ sec
  | [], d, _, _ => by
    rw [updSec, List.foldl_nil, List.append_nil]
  | (k, v) :: sec', d, hdisj, hnod => by
    rw [List.map_cons, nodupB_cons_iff] at hnod
    have h1 : updSec d ((k, v) :: sec') = updSec (setKV d k v) sec' := by
      rw [updSec, updSec, List.foldl_cons]
    rw [h1, setKV_fresh (hdisj k (by simp)), updSec_fresh sec' (d ++ [(k, v)]) ?_ hnod.2]
    · simp
    · intro x hx
      rw [List.map_append]
      intro hm
      rcases List.mem_append.mp hm with h2 | h3
      · exact hdisj x (List.mem_cons_of_mem _ hx) h2
      · rw [List.map_cons] at h3
        rcases List.mem_cons.mp h3 with h4 | h5
        · rw [h4] at hx
          exact hnod.1 hx
        · cases h5

theorem leaves_keys_sub : (t : CTree) → ∀ x ∈ (leaves t).map Prod.fst, x ∈ keysT t
  | .nil => by simp [leaves, keysT]
  | .cons k (.scalar v) rest => by
    intro x hx
    rw [leaves, List.map_cons] at hx
    rw [keysT]
    rcases List.mem_cons.mp hx with h1 | h2
    · rw [h1]; exact List.mem_cons_self _ _
    · exact List.mem_cons_of_mem _ (leaves_keys_sub rest x h2)
  | .cons k (.sub t') rest => by
    intro x hx
    rw [leaves] at hx
    rw [keysT]
    exact List.mem_cons_of_mem _ (leaves_keys_sub rest x hx)

theorem wf_leaves_nodup : (t : CTree) → wfB t = true →
    nodupB ((leaves t).map Prod.fst) = true
  | .nil, _ => rfl
  | .cons k (.scalar v) rest, hw => by
    rw [wfB, Bool.and_eq_true] at hw
    have hknotin : ¬ k ∈ keysT rest := by
      intro hm
      rw [if_pos hm] at hw
      exact absurd hw.1 (by simp)
    rw [leaves, List.map_cons, nodupB_cons_iff]
    exact ⟨fun hm => hknotin (leaves_keys_sub rest k hm), wf_leaves_nodup rest hw.2⟩
  | .cons k (.sub t') rest, hw => by
    rw [wfB, Bool.and_eq_true, Bool.and_eq_true] at hw
    rw [leaves]
    exact wf_leaves_nodup rest hw.2

theorem namesR_encSec_blocks (l : List (List PyStr × CTree)) :
    namesR (l.map encSec) = l.map (fun pn => join_path pn.1) := by
  simp [namesR, encSec, List.map_map]

/-- Main characterisation of the flattening worker: starting from any
accumulator whose names avoid the (duplicate-free) section names of the
subtree, it appends exactly one section per strict-descendant node, in
pre-order, keyed by the encoded path and carrying the node's leaves — and
collects the node's own leaves. -/
theorem fsTree_spec : (t : CTree) → (p : List PyStr) → (res : Res) →
    wfB t = true → nodupB (secNames t p) = true →
    (∀ n ∈ secNames t p, ¬ n ∈ namesR res) →
    fsTree t p res = (res ++ (preNodes t p).map encSec, leaves t)
  | .nil, p, res, _, _, _ => by
    rw [fsTree, preNodes]
    simp [leaves]
  | .cons k (.scalar v) rest, p, res, hw, hd, hfresh => by
    rw [wfB, Bool.and_eq_true] at hw
    rw [fsTree, fsTree_spec rest p res hw.2 hd hfresh, preNodes, leaves]
  | .cons k (.sub t') rest, p, res, hw, hd, hfresh => by
    rw [wfB, Bool.and_eq_true, Bool.and_eq_true] at hw
    obtain ⟨⟨-, hw1⟩, hw2⟩ := hw
    have hsplit : secNames (.cons k (.sub t') rest) p =
        join_path (p ++ [k]) :: (secNames t' (p ++ [k]) ++ secNames rest p) := by
      rw [secNames, preNodes, List.map_cons, List.map_append]
      rfl
    rw [hsplit, nodupB_cons_iff] at hd
    obtain ⟨hnmem, hdAB⟩ := hd
    have hdA := nodupB_append_left hdAB
    have hdB := nodupB_append_right hdAB
    have hdisjAB := nodupB_append_disj hdAB
    have hfresh_n : ¬ join_path (p ++ [k]) ∈ namesR res := by
      apply hfresh
      rw [hsplit]
      exact List.mem_cons_self _ _
    have hfreshA : ∀ n ∈ secNames t' (p ++ [k]), ¬ n ∈ namesR res := by
      intro n hn
      apply hfresh
      rw [hsplit]
      exact List.mem_cons_of_mem _ (List.mem_append_left _ hn)
    have hfreshB : ∀ n ∈ secNames rest p, ¬ n ∈ namesR res := by
      intro n hn
      apply hfresh
      rw [hsplit]
      exact List.mem_cons_of_mem _ (List.mem_append_right _ hn)
    rw [fsTree]
    rw [setdefaultR_fresh hfresh_n]
    rw [fsTree_spec t' (p ++ [k]) (res ++ [(join_path (p ++ [k]), [])]) hw1 hdA ?_]
    · have hassoc : (res ++ [(join_path (p ++ [k]), [])]) ++
          (preNodes t' (p ++ [k])).map encSec =
          res ++ (join_path (p ++ [k]), []) :: (preNodes t' (p ++ [k])).map encSec := by
        simp
      rw [hassoc]
      rw [updateR_middle (leaves t') res _ hfresh_n]
      rw [updSec_fresh (leaves t') [] (by simp) (wf_leaves_nodup t' hw1), List.nil_append]
      rw [fsTree_spec rest p
        (res ++ (join_path (p ++ [k]), leaves t') :: (preNodes t' (p ++ [k])).map encSec)
        hw2 hdB ?_]
      · rw [preNodes, List.map_cons, List.map_append, leaves]
        simp [encSec]
      · intro n hn
        have h1 : ¬ n ∈ namesR res := hfreshB n hn
        have h2 : ¬ n = join_path (p ++ [k]) := by
          intro hEq
          apply hnmem
          rw [← hEq]
          exact List.mem_append_right _ hn
        have h3 : ¬ n ∈ secNames t' (p ++ [k]) := by
          intro hm
          exact hdisjAB n hm hn
        intro hm
        rw [show namesR (res ++ (join_path (p ++ [k]), leaves t') ::
            (preNodes t' (p ++ [k])).map encSec) =
          namesR res ++ join_path (p ++ [k]) ::
            namesR ((preNodes t' (p ++ [k])).map encSec) from by simp [namesR]] at hm
        rcases List.mem_append.mp hm with hm1 | hm2
        · exact h1 hm1
        · rcases List.mem_cons.mp hm2 with hm3 | hm4
          · exact h2 hm3
          · apply h3
            rw [secNames_eq]
            rw [namesR_encSec_blocks] at hm4
            rw [List.map_map]
            exact hm4
    · intro n hn
      rw [namesR_append_pair]
      intro hm
      rcases List.mem_append.mp hm with hm1 | hm2
      · exact hfreshA n hn hm1
      · rw [List.mem_singleton] at hm2
        apply hnmem
        rw [← hm2]
        exact List.mem_append_left _ hn

/-- `flatten_sections` realises the specification enumeration: one section
per strict-descendant node, keyed by the encoded path, carrying the node's
direct leaf entries, in pre-order; the root's section is popped. -/
theorem flatten_sections_spec {t : CTree} (hw : wfB t = true) (hg : goodKeysB t = true) :
    flatten_sections t = (preNodes t []).map encSec := by
  have hd := secNames_nodup hw hg
  have hroot := @secNames_ne_root t hg
  have hfresh : ∀ n ∈ secNames t [], ¬ n ∈ namesR [(join_path [], ([] : SecList))] := by
    intro n hn hm
    rw [show namesR [(join_path [], ([] : SecList))] = [join_path []] from rfl,
      List.mem_singleton] at hm
    exact hroot n hn hm
  have hfs := fsTree_spec t [] [(join_path [], [])] hw hd hfresh
  show eraseR (updateR (fsTree t [] (setdefaultR [] (join_path []))).1 (join_path [])
      (fsTree t [] (setdefaultR [] (join_path []))).2) [] = (preNodes t []).map encSec
  rw [show setdefaultR [] (join_path []) = [(join_path [], [])] from rfl, hfs]
  show eraseR (updateR ([(join_path [], [])] ++ (preNodes t []).map encSec) (join_path [])
      (leaves t)) [] = (preNodes t []).map encSec
  have h1 : ([(join_path [], [])] : Res) ++ (preNodes t []).map encSec =
      [] ++ (join_path [], ([] : SecList)) :: (preNodes t []).map encSec := by
    simp
  rw [h1, updateR_middle (leaves t) [] _ (by simp [namesR])]
  rw [List.nil_append]
  rw [eraseR, if_pos (show ([] : PyStr) = join_path [] from rfl)]

/-- C9, counterexample to the claim as stated: for the well-formed tree
`{"a.": {}, "'a": {"'": {}}}` two distinct non-root nodes encode to the same
section name (`join_path ["a."] = "'a.'" = join_path ["'a", "'"]` — a quote
inside a key collides with the quoting added for a dotted key), so
`flatten_sections` emits two sections for three non-root nodes: not exactly
one section per node. -/
theorem c9_section_emission_counterexample :
    wfB (.cons (pys "a.") (.sub .nil)
      (.cons (pys "'a") (.sub (.cons (pys "'") (.sub .nil) .nil)) .nil)) = true ∧
    (preNodes (.cons (pys "a.") (.sub .nil)
      (.cons (pys "'a") (.sub (.cons (pys "'") (.sub .nil) .nil)) .nil)) []).length = 3 ∧
    (flatten_sections (.cons (pys "a.") (.sub .nil)
      (.cons (pys "'a") (.sub (.cons (pys "'") (.sub .nil) .nil)) .nil))).length = 2 := by
  refine ⟨by decide, by decide, by decide⟩

/-- C9 as amended: for every tree with unique keys per node (as Python dicts
guarantee) whose keys are `goodKeyB` (nonempty, quote-free, `repr`-safe when
dotted), `flatten_sections` emits exactly one Section per non-root node —
keyed by the encoded path and containing exactly that node's direct leaf
entries, each node's own Section preceding its descendants' (`preNodes` is
the pre-order enumeration of the strict descendants, listing each exactly
once) — the section names are pairwise distinct, and no root section (name
`""`) is emitted. -/
theorem c9_section_emission (t : CTree) (hw : wfB t = true) (hg : goodKeysB t = true) :
    flatten_sections t = (preNodes t []).map encSec ∧
      nodupB ((flatten_sections t).map Prod.fst) = true ∧
      ¬ ([] : PyStr) ∈ (flatten_sections t).map Prod.fst := by
  refine ⟨flatten_sections_spec hw hg, ?_, flatten_sections_no_root t⟩
  rw [flatten_sections_spec hw hg]
  have : ((preNodes t []).map encSec).map Prod.fst = secNames t [] := by
    rw [secNames]
    simp [encSec, List.map_map]
  rw [this]
  exact secNames_nodup hw hg

/-- Witness for C9 as amended, at the tree `{"a": {"x": {"k": 1}, "j": 2}}`. -/
theorem c9_section_emission_witness :
    wfB (.cons (pys "a")
      (.sub (.cons (pys "x") (.sub (.cons (pys "k") (.scalar (.int 1)) .nil))
        (.cons (pys "j") (.scalar (.int 2)) .nil))) .nil) = true ∧
    flatten_sections (.cons (pys "a")
      (.sub (.cons (pys "x") (.sub (.cons (pys "k") (.scalar (.int 1)) .nil))
        (.cons (pys "j") (.scalar (.int 2)) .nil))) .nil) =
      (preNodes (.cons (pys "a")
        (.sub (.cons (pys "x") (.sub (.cons (pys "k") (.scalar (.int 1)) .nil))
          (.cons (pys "j") (.scalar (.int 2)) .nil))) .nil) []).map encSec :=
  ⟨by decide,
    (c9_section_emission _ (by decide) (by decide)).1⟩

/-- Concatenation of the entry lists of two nodes. -/
def appendT : CTree → CTree → CTree
  | .nil, u => u
  | .cons k e r, u => .cons k e (appendT r u)

theorem appendT_nil : (a : CTree) → appendT a .nil = a
  | .nil => rfl
  | .cons k e r => by rw [appendT, appendT_nil r]

theorem appendT_assoc : (a : CTree) → (b c : CTree) →
    appendT (appendT a b) c = appendT a (appendT b c)
  | .nil, _, _ => rfl
  | .cons k e r, b, c => by rw [appendT, appendT, appendT, appendT_assoc r]

theorem keysT_appendT : (a : CTree) → (b : CTree) →
    keysT (appendT a b) = keysT a ++ keysT b
  | .nil, _ => rfl
  | .cons k e r, b => by rw [appendT, keysT, keysT, keysT_appendT r, List.cons_append]

theorem lookupT_eq_none_iff : (t : CTree) → (k : PyStr) →
    (lookupT t k = Option.none ↔ ¬ k ∈ keysT t)
  | .nil, k => by simp [lookupT, keysT]
  | .cons k' e r, k => by
    rw [lookupT, keysT]
    by_cases h : k = k'
    · simp [h]
    · rw [if_neg h]
      rw [lookupT_eq_none_iff r k]
      simp [h]

theorem setItemT_fresh {k : PyStr} {e : CEntry} : ∀ {t : CTree}, ¬ k ∈ keysT t →
    setItemT t k e = appendT t (.cons k e .nil)
  | .nil, _ => rfl
  | .cons k' e' r, h => by
    have hne : ¬ k = k' := by
      intro hEq
      exact h (by rw [hEq, keysT]; exact List.mem_cons_self _ _)
    rw [setItemT, if_neg hne, appendT,
      setItemT_fresh (fun hm => h (by rw [keysT]; exact List.mem_cons_of_mem _ hm))]

theorem setItemT_self {k : PyStr} {e : CEntry} : ∀ {t : CTree},
    lookupT t k = Option.some e → setItemT t k e = t
  | .nil, h => by cases h
  | .cons k' e' r, h => by
    rw [lookupT] at h
    by_cases hk : k = k'
    · rw [if_pos hk] at h
      cases h
      rw [setItemT, if_pos hk]
    · rw [if_neg hk] at h
      rw [setItemT, if_neg hk, setItemT_self h]

theorem lookupT_setItemT_self : ∀ (t : CTree) (k : PyStr) (e : CEntry),
    lookupT (setItemT t k e) k = Option.some e
  | .nil, k, e => by rw [setItemT, lookupT, if_pos rfl]
  | .cons k' e' r, k, e => by
    rw [setItemT]
    by_cases hk : k = k'
    · rw [if_pos hk, lookupT, if_pos hk]
    · rw [if_neg hk, lookupT, if_neg hk, lookupT_setItemT_self r]

theorem lookupT_setItemT_other {k k' : PyStr} (hne : ¬ k' = k) :
    ∀ (t : CTree) (e : CEntry), lookupT (setItemT t k e) k' = lookupT t k'
  | .nil, e => by
    simp [setItemT, lookupT, hne]
  | .cons k2 e2 r, e => by
    rw [setItemT]
    by_cases hk : k = k2
    · rw [if_pos hk, lookupT, lookupT]
      rw [← hk]
      rw [if_neg hne, if_neg hne]
    · rw [if_neg hk, lookupT, lookupT]
      by_cases h2 : k' = k2
      · rw [if_pos h2, if_pos h2]
      · rw [if_neg h2, if_neg h2, lookupT_setItemT_other hne r]

theorem setItemT_setItemT_same : ∀ (t : CTree) (k : PyStr) (e1 e2 : CEntry),
    setItemT (setItemT t k e1) k e2 = setItemT t k e2
  | .nil, k, e1, e2 => by
    simp [setItemT]
  | .cons k' e' r, k, e1, e2 => by
    rw [setItemT]
    by_cases hk : k = k'
    · rw [if_pos hk, setItemT, if_pos hk, setItemT, if_pos hk]
    · rw [if_neg hk, setItemT, if_neg hk, setItemT, if_neg hk, setItemT_setItemT_same r]

theorem keysT_setItemT_fresh {k : PyStr} {e : CEntry} {t : CTree} (h : ¬ k ∈ keysT t) :
    keysT (setItemT t k e) = keysT t ++ [k] := by
  rw [setItemT_fresh h, keysT_appendT]
  rfl

/-- The sub-tree keys of a node, in order. -/
def subKeysT : CTree → List PyStr
  | .nil => []
  | .cons _ (.scalar _) rest => subKeysT rest
  | .cons k (.sub _) rest => k :: subKeysT rest

theorem subKeysT_sub_keysT : (t : CTree) → ∀ k ∈ subKeysT t, k ∈ keysT t
  | .nil => by simp [subKeysT]
  | .cons k' (.scalar v) rest => by
    intro k hk
    rw [keysT]
    exact List.mem_cons_of_mem _ (subKeysT_sub_keysT rest k hk)
  | .cons k' (.sub t') rest => by
    intro k hk
    rw [subKeysT] at hk
    rw [keysT]
    rcases List.mem_cons.mp hk with h1 | h2
    · rw [h1]; exact List.mem_cons_self _ _
    · exact List.mem_cons_of_mem _ (subKeysT_sub_keysT rest k h2)

theorem wf_subKeys_nodup : (t : CTree) → wfB t = true → nodupB (subKeysT t) = true
  | .nil, _ => rfl
  | .cons k (.scalar v) rest, hw => by
    rw [wfB, Bool.and_eq_true] at hw
    exact wf_subKeys_nodup rest hw.2
  | .cons k (.sub t') rest, hw => by
    rw [wfB, Bool.and_eq_true, Bool.and_eq_true] at hw
    obtain ⟨⟨hk, -⟩, hw2⟩ := hw
    have hknotin : ¬ k ∈ keysT rest := by
      intro hm
      rw [if_pos hm] at hk
      cases hk
    rw [subKeysT, nodupB_cons_iff]
    exact ⟨fun hm => hknotin (subKeysT_sub_keysT rest k hm), wf_subKeys_nodup rest hw2⟩

theorem wf_subKeys_not_leaf : (t : CTree) → wfB t = true →
    ∀ k ∈ subKeysT t, ¬ k ∈ (leaves t).map Prod.fst
  | .nil, _ => by simp [subKeysT]
  | .cons k' (.scalar v) rest, hw => by
    rw [wfB, Bool.and_eq_true] at hw
    obtain ⟨hk', hw2⟩ := hw
    have hknotin : ¬ k' ∈ keysT rest := by
      intro hm
      rw [if_pos hm] at hk'
      cases hk'
    intro k hk
    rw [leaves, List.map_cons]
    intro hm
    rcases List.mem_cons.mp hm with h1 | h2
    · rw [h1] at hk
      exact hknotin (subKeysT_sub_keysT rest k' hk)
    · exact wf_subKeys_not_leaf rest hw2 k hk h2
  | .cons k' (.sub t') rest, hw => by
    rw [wfB, Bool.and_eq_true, Bool.and_eq_true] at hw
    obtain ⟨⟨hk', -⟩, hw2⟩ := hw
    have hknotin : ¬ k' ∈ keysT rest := by
      intro hm
      rw [if_pos hm] at hk'
      cases hk'
    intro k hk
    rw [subKeysT] at hk
    rw [leaves]
    rcases List.mem_cons.mp hk with h1 | h2
    · rw [h1]
      intro hm
      exact hknotin (leaves_keys_sub rest k' hm)
    · exact wf_subKeys_not_leaf rest hw2 k h2

/-- Replace the node at an existing all-`sub` path (identity off the path). -/
def replaceAt : CTree → List PyStr → CTree → CTree
  | _, [], r => r
  | t, q :: ps, r =>
    match lookupT t q with
    | Option.some (.sub t') => setItemT t q (.sub (replaceAt t' ps r))
    | _ => t

theorem pathNode_append : ∀ (p : List PyStr) (t : CTree) (q : List PyStr),
    pathNode t (p ++ q) =
      match pathNode t p with
      | Option.some n => pathNode n q
      | Option.none => Option.none
  | [], t, q => rfl
  | x :: p', t, q => by
    rw [List.cons_append, pathNode, pathNode]
    cases lookupT t x with
    | none => rfl
    | some e =>
      cases e with
      | scalar v => rfl
      | sub t' => exact pathNode_append p' t' q

theorem pathNode_replaceAt : ∀ (p : List PyStr) {t n : CTree} (r : CTree),
    pathNode t p = Option.some n → pathNode (replaceAt t p r) p = Option.some r
  | [], t, n, r, _ => rfl
  | x :: p', t, n, r, h => by
    rw [pathNode] at h
    cases hl : lookupT t x with
    | none => rw [hl] at h; cases h
    | some e =>
      rw [hl] at h
      cases e with
      | scalar v => cases h
      | sub t' =>
        rw [replaceAt, hl, pathNode, lookupT_setItemT_self]
        exact pathNode_replaceAt p' _ h

theorem replaceAt_append : ∀ (p : List PyStr) {t m : CTree} (q : List PyStr) (r : CTree),
    pathNode t p = Option.some m →
    replaceAt t (p ++ q) r = replaceAt t p (replaceAt m q r)
  | [], t, m, q, r, h => by
    rw [pathNode] at h
    cases h
    rfl
  | x :: p', t, m, q, r, h => by
    rw [pathNode] at h
    cases hl : lookupT t x with
    | none => rw [hl] at h; cases h
    | some e =>
      rw [hl] at h
      cases e with
      | scalar v => cases h
      | sub t' =>
        simp only [List.cons_append, List.append_eq, replaceAt, hl]
        rw [replaceAt_append p' q r h]

theorem replaceAt_replaceAt : ∀ (p : List PyStr) {t n : CTree} (a b : CTree),
    pathNode t p = Option.some n →
    replaceAt (replaceAt t p a) p b = replaceAt t p b
  | [], _, _, _, _, _ => rfl
  | x :: p', t, n, a, b, h => by
    rw [pathNode] at h
    cases hl : lookupT t x with
    | none => rw [hl] at h; cases h
    | some e =>
      rw [hl] at h
      cases e with
      | scalar v => cases h
      | sub t' =>
        simp only [replaceAt, hl, lookupT_setItemT_self]
        rw [replaceAt_replaceAt p' a b h, setItemT_setItemT_same]

theorem replaceAt_self : ∀ (p : List PyStr) {t n : CTree},
    pathNode t p = Option.some n → replaceAt t p n = t
  | [], t, n, h => by
    rw [pathNode] at h
    cases h
    rfl
  | x :: p', t, n, h => by
    rw [pathNode] at h
    cases hl : lookupT t x with
    | none => rw [hl] at h; cases h
    | some e =>
      rw [hl] at h
      cases e with
      | scalar v => cases h
      | sub t' =>
        simp only [replaceAt, hl]
        rw [replaceAt_self p' h, setItemT_self hl]

/-- The walk of one section through an existing all-`sub` chain acts inside
the chain's final node and rebuilds the chain around the result. -/
theorem walkUpdate_through : ∀ (p : List PyStr) {t n : CTree} (p' : List PyStr) (sec : SecList),
    pathNode t p = Option.some n →
    walkUpdate t (p ++ p') sec =
      match walkUpdate n p' sec with
      | .ok r => .ok (replaceAt t p r)
      | .error e => .error e
  | [], t, n, p', sec, h => by
    rw [pathNode] at h
    cases h
    rw [List.nil_append]
    cases walkUpdate t p' sec <;> rfl
  | x :: q, t, n, p', sec, h => by
    rw [pathNode] at h
    cases hl : lookupT t x with
    | none => rw [hl] at h; cases h
    | some e =>
      rw [hl] at h
      cases e with
      | scalar v => cases h
      | sub t' =>
        simp only [List.cons_append, List.append_eq, walkUpdate, hl]
        rw [walkUpdate_through q p' sec h]
        cases walkUpdate n p' sec with
        | ok r => simp only [replaceAt, hl]
        | error e => rfl

theorem keyLe_refl : (a : PyStr) → keyLe a a = true
  | [] => rfl
  | x :: xs => by
    rw [keyLe, if_neg (Nat.lt_irrefl x), if_neg (Nat.lt_irrefl x)]
    exact keyLe_refl xs

theorem keyLe_total : (a b : PyStr) → keyLe a b = true ∨ keyLe b a = true
  | [], _ => Or.inl rfl
  | _ :: _, [] => Or.inr rfl
  | a :: as, b :: bs => by
    rcases Nat.lt_trichotomy a b with h | h | h
    · exact Or.inl (by rw [keyLe, if_pos h])
    · subst h
      rw [keyLe, if_neg (Nat.lt_irrefl a), if_neg (Nat.lt_irrefl a),
        keyLe, if_neg (Nat.lt_irrefl a), if_neg (Nat.lt_irrefl a)]
      exact keyLe_total as bs
    · exact Or.inr (by rw [keyLe, if_pos h])

theorem keyLe_antisymm : (a b : PyStr) → keyLe a b = true → keyLe b a = true → a = b
  | [], [], _, _ => rfl
  | [], _ :: _, _, h2 => by rw [keyLe] at h2; cases h2
  | _ :: _, [], h1, _ => by rw [keyLe] at h1; cases h1
  | a :: as, b :: bs, h1, h2 => by
    rw [keyLe] at h1 h2
    by_cases hab : a < b
    · rw [if_neg (Nat.lt_asymm hab), if_pos hab] at h2
      cases h2
    · rw [if_neg hab] at h1
      by_cases hba : b < a
      · rw [if_pos hba] at h1
        cases h1
      · rw [if_neg hba] at h1
        rw [if_neg hba, if_neg hab] at h2
        have hk := keyLe_antisymm as bs h1 h2
        have he : a = b := Nat.le_antisymm (Nat.le_of_not_lt hba) (Nat.le_of_not_lt hab)
        rw [he, hk]

theorem keyLe_trans : (a b c : PyStr) → keyLe a b = true → keyLe b c = true → keyLe a c = true
  | [], _, _, _, _ => rfl
  | _ :: _, [], _, h1, _ => by rw [keyLe] at h1; cases h1
  | _ :: _, _ :: _, [], _, h2 => by rw [keyLe] at h2; cases h2
  | a :: as, b :: bs, c :: cs, h1, h2 => by
    rw [keyLe] at h1 h2 ⊢
    by_cases hab : a < b
    · by_cases hbc : b < c
      · rw [if_pos (Nat.lt_trans hab hbc)]
      · rw [if_neg hbc] at h2
        by_cases hcb : c < b
        · rw [if_pos hcb] at h2
          cases h2
        · have he : b = c := Nat.le_antisymm (Nat.le_of_not_lt hcb) (Nat.le_of_not_lt hbc)
          rw [if_pos (he ▸ hab)]
    · rw [if_neg hab] at h1
      by_cases hba : b < a
      · rw [if_pos hba] at h1
        cases h1
      · rw [if_neg hba] at h1
        have he : a = b := Nat.le_antisymm (Nat.le_of_not_lt hba) (Nat.le_of_not_lt hab)
        subst he
        by_cases hac : a < c
        · rw [if_pos hac]
        · rw [if_neg hac] at h2 ⊢
          by_cases hca : c < a
          · rw [if_pos hca] at h2
            cases h2
          · rw [if_neg hca] at h2 ⊢
            exact keyLe_trans as bs cs h1 h2

theorem keyLe_false_of {k k' : PyStr} (hne : ¬ k = k') (h : keyLe k k' = true) :
    keyLe k' k = false := by
  cases h2 : keyLe k' k with
  | false => rfl
  | true => exact absurd (keyLe_antisymm k k' h h2) hne

theorem keyLe_true_of_false {k k' : PyStr} (h : keyLe k k' = false) :
    keyLe k' k = true := by
  rcases keyLe_total k k' with h1 | h1
  · rw [h1] at h
    cases h
  · exact h1

/-- Insertions at distinct keys into a sorted node commute. -/
theorem insert_comm {k k' : PyStr} (e e' : CEntry) (hne : ¬ k = k') :
    ∀ u : CTree, insertSorted k e (insertSorted k' e' u) = insertSorted k' e' (insertSorted k e u)
  | .nil => by
    by_cases h1 : keyLe k k' = true
    · have h2 := keyLe_false_of hne h1
      simp [insertSorted, h1, h2]
    · have h1' : keyLe k k' = false := by
        cases hx : keyLe k k'
        · rfl
        · exact absurd hx h1
      have h2 := keyLe_true_of_false h1'
      simp [insertSorted, h1', h2]
  | .cons k2 e2 r => by
    by_cases h12 : keyLe k' k2 = true
    · by_cases hkk : keyLe k k' = true
      · have hk'k := keyLe_false_of hne hkk
        have hk2 : keyLe k k2 = true := keyLe_trans k k' k2 hkk h12
        simp [insertSorted, h12, hkk, hk'k, hk2]
      · have hkk' : keyLe k k' = false := by
          cases hx : keyLe k k'
          · rfl
          · exact absurd hx hkk
        have hk'k := keyLe_true_of_false hkk'
        by_cases hk2 : keyLe k k2 = true
        · simp [insertSorted, h12, hkk', hk'k, hk2]
        · have hk2' : keyLe k k2 = false := by
            cases hx : keyLe k k2
            · rfl
            · exact absurd hx hk2
          simp [insertSorted, h12, hkk', hk'k, hk2']
    · have h12' : keyLe k' k2 = false := by
        cases hx : keyLe k' k2
        · rfl
        · exact absurd hx h12
      have h21 := keyLe_true_of_false h12'
      by_cases hk2 : keyLe k k2 = true
      · have hkk : keyLe k k' = true := keyLe_trans k k2 k' hk2 h21
        have hk'k := keyLe_false_of hne hkk
        simp [insertSorted, h12', hk2, hkk, hk'k]
      · have hk2' : keyLe k k2 = false := by
          cases hx : keyLe k k2
          · rfl
          · exact absurd hx hk2
        simp only [insertSorted, h12', hk2', Bool.false_eq_true, if_false]
        rw [insert_comm e e' hne r]

/-- Insert (normalised) entries of the first node into an accumulator. -/
def normInto : CTree → CTree → CTree
  | .nil, u => u
  | .cons k (.scalar v) rest, u => insertSorted k (.scalar v) (normInto rest u)
  | .cons k (.sub t) rest, u => insertSorted k (.sub (normTree t)) (normInto rest u)

theorem normTree_appendT : (a b : CTree) → normTree (appendT a b) = normInto a (normTree b)
  | .nil, _ => rfl
  | .cons k (.scalar v) r, b => by
    rw [appendT, normTree, normInto, normTree_appendT r]
  | .cons k (.sub t) r, b => by
    rw [appendT, normTree, normInto, normTree_appendT r]

theorem normInto_insertSorted {k : PyStr} (e : CEntry) :
    ∀ (a : CTree) (u : CTree), ¬ k ∈ keysT a →
    normInto a (insertSorted k e u) = insertSorted k e (normInto a u)
  | .nil, u, _ => rfl
  | .cons k2 (.scalar v) r, u, h => by
    have hne : ¬ k2 = k := by
      intro hEq
      exact h (by rw [hEq] at *; rw [keysT]; exact List.mem_cons_self _ _)
    rw [normInto, normInto,
      normInto_insertSorted e r u (fun hm => h (by rw [keysT]; exact List.mem_cons_of_mem _ hm)),
      insert_comm _ e hne]
  | .cons k2 (.sub t) r, u, h => by
    have hne : ¬ k2 = k := by
      intro hEq
      exact h (by rw [hEq] at *; rw [keysT]; exact List.mem_cons_self _ _)
    rw [normInto, normInto,
      normInto_insertSorted e r u (fun hm => h (by rw [keysT]; exact List.mem_cons_of_mem _ hm)),
      insert_comm _ e hne]

/-- The direct scalar entries of a node, kept as a node (in order). -/
def scalsT : CTree → CTree
  | .nil => .nil
  | .cons k (.scalar v) rest => .cons k (.scalar v) (scalsT rest)
  | .cons _ (.sub _) rest => scalsT rest

/-- The tree `parse_config` rebuilds below the root from a pre-order dump of a
tree `t`: each node's scalar entries first (apppended in section order), then
one `sub` entry per original sub-entry, rebuilt recursively. -/
def rebuildSubs : CTree → CTree
  | .nil => .nil
  | .cons _ (.scalar _) rest => rebuildSubs rest
  | .cons k (.sub t) rest =>
    .cons k (.sub (appendT (scalsT t) (rebuildSubs t))) (rebuildSubs rest)

/-- The rebuilt form of one non-root node: its leaves, then its rebuilt subs. -/
def rebuildT (t : CTree) : CTree := appendT (scalsT t) (rebuildSubs t)

theorem keysT_scalsT : (t : CTree) → keysT (scalsT t) = (leaves t).map Prod.fst
  | .nil => rfl
  | .cons k (.scalar v) rest => by
    rw [scalsT, keysT, leaves, List.map_cons, keysT_scalsT rest]
  | .cons k (.sub t') rest => by
    rw [scalsT, leaves, keysT_scalsT rest]

theorem scalsT_of_rootAllSub : (t : CTree) → rootAllSubB t = true → scalsT t = .nil
  | .nil, _ => rfl
  | .cons k (.scalar v) rest, h => by rw [rootAllSubB] at h; cases h
  | .cons k (.sub t') rest, h => by
    rw [rootAllSubB] at h
    rw [scalsT, scalsT_of_rootAllSub rest h]

/-- Main normalisation fact: rebuilding a node (leaves pulled ahead of the
recursively rebuilt subs) does not change its key-sorted normal form, as keys
are unique in every node. -/
theorem normInto_rebuild : (t : CTree) → wfB t = true →
    normInto (scalsT t) (normTree (rebuildSubs t)) = normTree t
  | .nil, _ => rfl
  | .cons k (.scalar v) rest, hw => by
    rw [wfB, Bool.and_eq_true] at hw
    rw [scalsT, rebuildSubs, normInto, normInto_rebuild rest hw.2, normTree]
  | .cons k (.sub t') rest, hw => by
    rw [wfB, Bool.and_eq_true, Bool.and_eq_true] at hw
    obtain ⟨⟨hk, hw1⟩, hw2⟩ := hw
    have hknotin : ¬ k ∈ keysT rest := by
      intro hm
      rw [if_pos hm] at hk
      cases hk
    have hksc : ¬ k ∈ keysT (scalsT rest) := by
      rw [keysT_scalsT]
      intro hm
      exact hknotin (leaves_keys_sub rest k hm)
    have hsub : normTree (appendT (scalsT t') (rebuildSubs t')) = normTree t' := by
      rw [normTree_appendT, normInto_rebuild t' hw1]
    rw [scalsT, rebuildSubs, normTree, hsub,
      normInto_insertSorted _ (scalsT rest) _ hksc, normInto_rebuild rest hw2, normTree]

theorem normTree_rebuildT {t : CTree} (hw : wfB t = true) :
    normTree (rebuildT t) = normTree t := by
  rw [rebuildT, normTree_appendT, normInto_rebuild t hw]

theorem normTree_rebuildSubs {t : CTree} (hw : wfB t = true) (hr : rootAllSubB t = true) :
    normTree (rebuildSubs t) = normTree t := by
  have h := normInto_rebuild t hw
  rw [scalsT_of_rootAllSub t hr] at h
  exact h

/-- A section's entries as a node of scalar entries, in order. -/
def ofSec : SecList → CTree
  | [] => .nil
  | (k, v) :: r => .cons k (.scalar v) (ofSec r)

theorem ofSec_leaves : (t : CTree) → ofSec (leaves t) = scalsT t
  | .nil => rfl
  | .cons k (.scalar v) rest => by rw [leaves, ofSec, ofSec_leaves rest, scalsT]
  | .cons k (.sub t') rest => by rw [leaves, ofSec_leaves rest, scalsT]

/-- `current.update(sec)` on a node whose keys avoid the (duplicate-free)
section keys appends the section's entries in order. -/
theorem updEntries_fresh : ∀ (sec : SecList) (u : CTree),
    nodupB (sec.map Prod.fst) = true →
    (∀ x ∈ sec.map Prod.fst, ¬ x ∈ keysT u) →
    updEntries u sec = appendT u (ofSec sec)
  | [], u, _, _ => by rw [updEntries, List.foldl_nil, ofSec, appendT_nil]
  | (k, v) :: r, u, hnod, hfresh => by
    rw [List.map_cons, nodupB_cons_iff] at hnod
    have h1 : updEntries u ((k, v) :: r) = updEntries (setItemT u k (.scalar v)) r := by
      rw [updEntries, updEntries, List.foldl_cons]
    have hkf : ¬ k ∈ keysT u := hfresh k (by rw [List.map_cons]; exact List.mem_cons_self _ _)
    have hfresh2 : ∀ x ∈ r.map Prod.fst,
        ¬ x ∈ keysT (appendT u (.cons k (.scalar v) .nil)) := by
      intro x hx
      rw [keysT_appendT]
      intro hm
      rcases List.mem_append.mp hm with hm1 | hm2
      · exact hfresh x (by rw [List.map_cons]; exact List.mem_cons_of_mem _ hx) hm1
      · rw [show keysT (.cons k (.scalar v) .nil) = [k] from rfl, List.mem_singleton] at hm2
        rw [hm2] at hx
        exact hnod.1 hx
    rw [h1, setItemT_fresh hkf, updEntries_fresh r _ hnod.2 hfresh2, appendT_assoc]
    rfl

theorem leaves_bmp : (t : CTree) → bmpB t = true → ∀ kv ∈ leaves t, bmpValB kv.2 = true
  | .nil, _ => by simp [leaves]
  | .cons k (.scalar v) rest, hb => by
    rw [bmpB, Bool.and_eq_true] at hb
    intro kv hkv
    rw [leaves] at hkv
    rcases List.mem_cons.mp hkv with h1 | h2
    · rw [h1]
      exact hb.1
    · exact leaves_bmp rest hb.2 kv h2
  | .cons k (.sub t') rest, hb => by
    rw [bmpB, Bool.and_eq_true] at hb
    intro kv hkv
    rw [leaves] at hkv
    exact leaves_bmp rest hb.2 kv hkv

/-- Dumping then re-decoding a section's BMP values is the identity. -/
theorem dumped_sec_decode : ∀ (sec : SecList), (∀ kv ∈ sec, bmpValB kv.2 = true) →
    (sec.map (fun kv => (kv.1, config_literal_dump kv.2))).map
      (fun kv => (kv.1, config_literal_eval kv.2)) = sec
  | [], _ => rfl
  | (k, v) :: r, hb => by
    rw [List.map_cons, List.map_cons,
      dumped_sec_decode r (fun kv hkv => hb kv (List.mem_cons_of_mem _ hkv)),
      eval_dump_roundtrip v (hb (k, v) (List.mem_cons_self _ _))]

theorem parseGo_compose : ∀ (d1 : Document) {T T1 : CTree} (d2 : Document),
    parseGo T d1 = .ok T1 → parseGo T (d1 ++ d2) = parseGo T1 d2
  | [], T, T1, d2, h => by
    rw [parseGo] at h
    cases h
    rw [List.nil_append]
  | s :: r, T, T1, d2, h => by
    rw [parseGo] at h
    cases hp : processSection T s with
    | ok T2 =>
      rw [hp] at h
      rw [List.cons_append]
      simp only [parseGo, hp]
      exact parseGo_compose r d2 h
    | error e =>
      rw [hp] at h
      cases h

/-- The document `_dump` produces for the strict descendants of a node at
path `p`: one raw section per `preNodes` entry, values dumped. -/
def docBlocks (t : CTree) (p : List PyStr) : Document :=
  ((preNodes t p).map encSec).map
    (fun ns => (ns.1, ns.2.map (fun kv => (kv.1, config_literal_dump kv.2))))

theorem docBlocks_scalar (k : PyStr) (v : PyValue) (rest : CTree) (p : List PyStr) :
    docBlocks (.cons k (.scalar v) rest) p = docBlocks rest p := rfl

theorem docBlocks_sub (k : PyStr) (t' rest : CTree) (p : List PyStr) :
    docBlocks (.cons k (.sub t') rest) p =
      (join_path (p ++ [k]), (leaves t').map (fun kv => (kv.1, config_literal_dump kv.2))) ::
        (docBlocks t' (p ++ [k]) ++ docBlocks rest p) := by
  rw [docBlocks, docBlocks, docBlocks, preNodes]
  simp only [List.map_cons, List.map_append]
  rfl

/-- Main decode-side characterisation: running the section loop on the dumped
pre-order blocks of a subtree `t` (placed at path `p`, whose node in the host
tree is `N` and has no key clashing with `t`'s sub-entries) rebuilds exactly
`rebuildSubs t` appended to `N`, in place. -/
theorem parseGo_docBlocks : ∀ (t : CTree) (p : List PyStr) (T N : CTree),
    wfB t = true → goodKeysB t = true → bmpB t = true →
    p.all goodKeyB = true →
    pathNode T p = Option.some N →
    (∀ k2 ∈ subKeysT t, ¬ k2 ∈ keysT N) →
    parseGo T (docBlocks t p) = .ok (replaceAt T p (appendT N (rebuildSubs t)))
  | .nil, p, T, N, _, _, _, _, hpath, _ => by
    rw [show docBlocks .nil p = [] from rfl, parseGo, rebuildSubs, appendT_nil,
      replaceAt_self p hpath]
  | .cons k (.scalar v) rest, p, T, N, hw, hg, hb, hp, hpath, hf => by
    rw [wfB, Bool.and_eq_true] at hw
    rw [goodKeysB, Bool.and_eq_true] at hg
    rw [bmpB, Bool.and_eq_true] at hb
    rw [docBlocks_scalar, rebuildSubs]
    exact parseGo_docBlocks rest p T N hw.2 hg.2 hb.2 hp hpath hf
  | .cons k (.sub t') rest, p, T, N, hw, hg, hb, hp, hpath, hf => by
    rw [wfB, Bool.and_eq_true, Bool.and_eq_true] at hw
    obtain ⟨⟨hkmem, hw1⟩, hw2⟩ := hw
    rw [goodKeysB, Bool.and_eq_true, Bool.and_eq_true] at hg
    obtain ⟨⟨hgk, hg1⟩, hg2⟩ := hg
    rw [bmpB, Bool.and_eq_true] at hb
    obtain ⟨hb1, hb2⟩ := hb
    have hknotin : ¬ k ∈ keysT rest := by
      intro hm
      rw [if_pos hm] at hkmem
      cases hkmem
    have hkN : ¬ k ∈ keysT N := hf k (by rw [subKeysT]; exact List.mem_cons_self _ _)
    have hpkne : ¬ (p ++ [k]) = [] := by simp
    have hpkall : (p ++ [k]).all goodKeyB = true := by
      rw [List.all_append, Bool.and_eq_true]
      refine ⟨hp, ?_⟩
      simp [hgk]
    have hlkN : lookupT N k = Option.none := (lookupT_eq_none_iff N k).mpr hkN
    have hupd : updEntries .nil (leaves t') = scalsT t' := by
      rw [updEntries_fresh (leaves t') .nil (wf_leaves_nodup t' hw1)
        (by intro x _; simp [keysT])]
      rw [show appendT .nil (ofSec (leaves t')) = ofSec (leaves t') from rfl, ofSec_leaves]
    have hwu : walkUpdate N [k] (leaves t') = .ok (setItemT N k (.sub (scalsT t'))) := by
      simp only [walkUpdate, hlkN, hupd]
    have hps : processSection T
        (join_path (p ++ [k]), (leaves t').map (fun kv => (kv.1, config_literal_dump kv.2))) =
        .ok (replaceAt T p (setItemT N k (.sub (scalsT t')))) := by
      show walkUpdate T (split_path (join_path (p ++ [k])))
        (((leaves t').map (fun kv => (kv.1, config_literal_dump kv.2))).map
          (fun kv => (kv.1, config_literal_eval kv.2))) = _
      rw [split_join_id _ hpkne hpkall, dumped_sec_decode _ (leaves_bmp t' hb1),
        walkUpdate_through p [k] (leaves t') hpath, hwu]
    rw [docBlocks_sub, parseGo, hps]
    show parseGo (replaceAt T p (setItemT N k (.sub (scalsT t'))))
      (docBlocks t' (p ++ [k]) ++ docBlocks rest p) = _
    have hpT1 : pathNode (replaceAt T p (setItemT N k (.sub (scalsT t')))) p =
        Option.some (setItemT N k (.sub (scalsT t'))) := pathNode_replaceAt p _ hpath
    have hpT1k : pathNode (replaceAt T p (setItemT N k (.sub (scalsT t')))) (p ++ [k]) =
        Option.some (scalsT t') := by
      rw [pathNode_append p _ [k], hpT1]
      show pathNode (setItemT N k (.sub (scalsT t'))) [k] = _
      simp only [pathNode, lookupT_setItemT_self]
    have hfresh1 : ∀ k2 ∈ subKeysT t', ¬ k2 ∈ keysT (scalsT t') := by
      intro k2 hk2
      rw [keysT_scalsT]
      exact wf_subKeys_not_leaf t' hw1 k2 hk2
    have hrec1 := parseGo_docBlocks t' (p ++ [k]) _ _ hw1 hg1 hb1 hpkall hpT1k hfresh1
    rw [parseGo_compose _ _ hrec1]
    have hT2 : replaceAt (replaceAt T p (setItemT N k (.sub (scalsT t')))) (p ++ [k])
        (appendT (scalsT t') (rebuildSubs t')) =
        replaceAt T p (setItemT N k (.sub (rebuildT t'))) := by
      rw [replaceAt_append p [k] _ hpT1]
      have hstep : replaceAt (setItemT N k (.sub (scalsT t'))) [k]
          (appendT (scalsT t') (rebuildSubs t')) =
          setItemT N k (.sub (rebuildT t')) := by
        simp only [replaceAt, lookupT_setItemT_self]
        rw [setItemT_setItemT_same]
        rfl
      rw [hstep, replaceAt_replaceAt p _ _ hpath]
    have hpT2 : pathNode (replaceAt T p (setItemT N k (.sub (rebuildT t')))) p =
        Option.some (setItemT N k (.sub (rebuildT t'))) := pathNode_replaceAt p _ hpath
    have hfresh2 : ∀ k2 ∈ subKeysT rest, ¬ k2 ∈ keysT (setItemT N k (.sub (rebuildT t'))) := by
      intro k2 hk2
      rw [keysT_setItemT_fresh hkN]
      intro hm
      rcases List.mem_append.mp hm with hm1 | hm2
      · exact hf k2 (by rw [subKeysT]; exact List.mem_cons_of_mem _ hk2) hm1
      · rw [List.mem_singleton] at hm2
        rw [hm2] at hk2
        exact hknotin (subKeysT_sub_keysT rest k hk2)
    have hrec2 := parseGo_docBlocks rest p _ _ hw2 hg2 hb2 hp hpT2 hfresh2
    rw [hT2, hrec2, replaceAt_replaceAt p _ _ hpath, setItemT_fresh hkN, appendT_assoc]
    rfl

theorem dump_eq_docBlocks {t : CTree} (hw : wfB t = true) (hg : goodKeysB t = true) :
    _dump t = docBlocks t [] := by
  rw [_dump, flatten_sections_spec hw hg, docBlocks]

theorem docBlocks_names (t : CTree) :
    (docBlocks t []).map Prod.fst = secNames t [] := by
  rw [docBlocks, secNames]
  simp [List.map_map, encSec]

/-- Core round-trip fact: decoding the dumped document of a duplicate-free,
good-keyed, BMP-valued tree succeeds and yields exactly the rebuilt tree. -/
theorem parse_config_dump (t : CTree) (hw : wfB t = true) (hg : goodKeysB t = true)
    (hb : bmpB t = true) : parse_config (_dump t) = .ok (rebuildSubs t) := by
  rw [dump_eq_docBlocks hw hg, parse_config, docBlocks_names,
    if_pos (secNames_nodup hw hg)]
  exact parseGo_docBlocks t [] .nil .nil hw hg hb rfl rfl (by intro k2 _; simp [keysT])

/-- C1, corrected: the round trip `parse_config (_dump t) == t` (Python `==`
on nested dicts, which ignores insertion order) holds for every tree with
unique keys per node, `goodKeyB` keys (nonempty, quote-free, free of
backslash/C0/DEL when dotted) that are also `dotAsciiKeyB` (dotted keys
printable ASCII throughout, the range where CPython `repr` — modelled by
`reprEsc` — keeps every character verbatim; beyond it `repr` escapes
non-printable code points and `split_path` never unescapes, so such keys do
not survive the program's round trip), string scalars inside the Basic
Multilingual Plane, and no scalar entry directly at the root — the
amendments are forced by the counterexample
`c1_document_roundtrip_counterexample` (root scalars are silently dropped)
and the C2/C3/C9 edge cases on values and keys. -/
theorem c1_document_roundtrip (t : CTree) (hw : wfB t = true) (hg : goodKeysB t = true)
    (_ha : dotAsciiB t = true) (hb : bmpB t = true) (hr : rootAllSubB t = true) :
    ∃ t2, parse_config (_dump t) = .ok t2 ∧ pyDictEq t2 t :=
  ⟨rebuildSubs t, parse_config_dump t hw hg hb, normTree_rebuildSubs hw hr⟩

/-- Witness for C1 as amended, at the tree `{"a": {"b": 1, "c": {}}}`. -/
theorem c1_document_roundtrip_witness :
    wfB (.cons (pys "a") (.sub (.cons (pys "b") (.scalar (.int 1))
        (.cons (pys "c") (.sub .nil) .nil))) .nil) = true ∧
    dotAsciiB (.cons (pys "a") (.sub (.cons (pys "b") (.scalar (.int 1))
        (.cons (pys "c") (.sub .nil) .nil))) .nil) = true ∧
    ∃ t2, parse_config (_dump (.cons (pys "a") (.sub (.cons (pys "b") (.scalar (.int 1))
        (.cons (pys "c") (.sub .nil) .nil))) .nil)) = .ok t2 ∧
      pyDictEq t2 (.cons (pys "a") (.sub (.cons (pys "b") (.scalar (.int 1))
        (.cons (pys "c") (.sub .nil) .nil))) .nil) :=
  ⟨by decide, by decide,
    c1_document_roundtrip _ (by decide) (by decide) (by decide) (by decide) (by decide)⟩
